import Mathlib

/-!
# Verification of the subtitle timeline engine

A shallow embedding of the subtitle timeline engine of this repository
(`src/App.tsx` and the unnamed prototype files): the timecode codec, the
SRT parser and serializer, the ripple-shift editor, the synchronization
engine and the active-entry lookup.  JavaScript strings are modelled as
`List Char`; JavaScript numbers as `ℚ` (the sources only ever form
rational values from user input and arithmetic); a possible `NaN` is
modelled as `Option.none` at the few places a claim's truth depends on it.
-/

namespace SubEngine

/-- JS strings, modelled as lists of characters. -/
abbrev JStr := List Char

/-- The whitespace characters of JS `\s` that can occur in this code
(the ASCII fragment; the sources never build non-ASCII whitespace). -/
def wsChar (c : Char) : Bool :=
  c = ' ' || c = '\t' || c = '\n' || c = '\r' || c = '\x0b' || c = '\x0c'

/-- `String.prototype.trim`: whitespace removed from both ends. -/
def trimJS (s : JStr) : JStr :=
  ((s.dropWhile wsChar).reverse.dropWhile wsChar).reverse

/-- `srt.replace(/\r\n/g, '\n')` (also the separator-normalising half of
`split(/\r?\n/)`): every CRLF pair becomes a lone LF, left to right. -/
def normalizeCRLF : JStr → JStr
  | [] => []
  | [c] => [c]
  | c :: d :: rest =>
    if c = '\r' ∧ d = '\n' then '\n' :: normalizeCRLF rest
    else c :: normalizeCRLF (d :: rest)

/-- `String.prototype.split` with a single-character separator. -/
def splitOnChar (sep : Char) : JStr → List JStr
  | [] => [[]]
  | c :: cs =>
    if c = sep then [] :: splitOnChar sep cs
    else
      match splitOnChar sep cs with
      | [] => [[c]]
      | p :: ps => (c :: p) :: ps

/-- Joining with a separator, the shape `Array.prototype.join` produces. -/
def joinSep (sep : JStr) : List JStr → JStr
  | [] => []
  | [p] => p
  | p :: q :: ps => p ++ sep ++ joinSep sep (q :: ps)

/-- `String.prototype.padStart(n, c)` for a one-character pad. -/
def padStart (s : JStr) (n : ℕ) (c : Char) : JStr :=
  List.replicate (n - s.length) c ++ s

/-- `String.prototype.includes(pat)`. -/
def containsSub (pat : JStr) : JStr → Bool
  | [] => pat.isEmpty
  | c :: cs => pat.isPrefixOf (c :: cs) || containsSub pat cs

/-- `String.prototype.split(sep)` with a non-empty string separator:
successive leftmost occurrences cut the string. -/
def splitOnStrAux (sep : JStr) : ℕ → JStr → JStr → List JStr
  | 0, acc, s => [acc.reverse ++ s]
  | _ + 1, acc, [] => [acc.reverse]
  | fuel + 1, acc, c :: cs =>
    if sep.isPrefixOf (c :: cs) then
      acc.reverse :: splitOnStrAux sep fuel [] ((c :: cs).drop sep.length)
    else
      splitOnStrAux sep fuel (c :: acc) cs

/-- `String.prototype.split(sep)` for a non-empty literal separator. -/
def splitOnStr (sep s : JStr) : List JStr :=
  splitOnStrAux sep (s.length + 1) [] s

section Digits

/-- The decimal digit character for `d < 10` (JS number-to-string digits). -/
def digitChr : ℕ → Char
  | 0 => '0' | 1 => '1' | 2 => '2' | 3 => '3' | 4 => '4'
  | 5 => '5' | 6 => '6' | 7 => '7' | 8 => '8' | _ => '9'

/-- The numeric value of a digit character. -/
def digitVal (c : Char) : ℕ := c.toNat - 48

/-- Fuelled most-significant-first decimal rendering. -/
def natToCharsAux : ℕ → ℕ → List Char
  | 0, _ => []
  | fuel + 1, n =>
    if n < 10 then [digitChr n]
    else natToCharsAux fuel (n / 10) ++ [digitChr (n % 10)]

/-- JS `String(n)` for a natural number. -/
def natToChars (n : ℕ) : List Char := natToCharsAux (n + 1) n

/-- JS `String(i)` for an integer. -/
def intToChars (i : ℤ) : List Char :=
  if i < 0 then '-' :: natToChars (-i).toNat else natToChars i.toNat

/-- The value of a run of decimal digit characters. -/
def digitsVal (s : JStr) : ℕ :=
  s.foldl (fun acc c => acc * 10 + digitVal c) 0

/-- The maximal decimal-digit prefix as a number; `none` when there is no
digit (JS `NaN`). -/
def parseNatPrefix (s : JStr) : Option ℕ :=
  let ds := s.takeWhile (·.isDigit)
  if ds.isEmpty then none else some (digitsVal ds)

/-- JS `parseInt(s, 10)`: leading whitespace skipped, an optional sign,
then the maximal digit run; `none` models `NaN`. -/
def parseIntJS (s : JStr) : Option ℤ :=
  let t := s.dropWhile wsChar
  if t.headD ' ' = '-' then (parseNatPrefix t.tail).map (fun n => -(n : ℤ))
  else if t.headD ' ' = '+' then (parseNatPrefix t.tail).map (fun n => (n : ℤ))
  else (parseNatPrefix t).map (fun n => (n : ℤ))

/-- JS `parseFloat(s)` restricted to the inputs this code can feed it
(digits, `.`, `,` and `:` — never an exponent): the maximal valid numeric
prefix, `none` when there is none (`NaN`). -/
def parseFloatJS (s : JStr) : Option ℚ :=
  let t := s.dropWhile wsChar
  let t1 := if t.headD ' ' = '-' ∨ t.headD ' ' = '+' then t.tail else t
  let sgn : ℚ := if t.headD ' ' = '-' then -1 else 1
  let ip := t1.takeWhile (·.isDigit)
  let r1 := t1.drop ip.length
  let fp := if r1.headD ' ' = '.' then r1.tail.takeWhile (·.isDigit) else []
  if ip.isEmpty && fp.isEmpty then none
  else some (sgn * ((digitsVal ip : ℚ) + (digitsVal fp : ℚ) / 10 ^ fp.length))

end Digits

section BlankSplit

/-- The greedy match of the regex `/\n\s*\n/` at the head of `l`: the
remainder after the match, or `none`.  With backtracking, `\s*` extends to
just before the last newline of the whitespace run that follows the
initial newline. -/
def sepMatch (l : JStr) : Option JStr :=
  match l with
  | [] => none
  | c :: rest =>
    if c = '\n' then
      let w := rest.takeWhile wsChar
      match w.reverse.findIdx? (· = '\n') with
      | some k => some (rest.drop (w.length - k))
      | none => none
    else none

/-- Fuelled scan of `String.prototype.split(/\n\s*\n/)`. -/
def splitBlankAux : ℕ → JStr → JStr → List JStr
  | 0, acc, l => [acc.reverse ++ l]
  | _ + 1, acc, [] => [acc.reverse]
  | fuel + 1, acc, l@(c :: cs) =>
    match sepMatch l with
    | some rest => acc.reverse :: splitBlankAux fuel [] rest
    | none => splitBlankAux fuel (c :: acc) cs

/-- `srt.split(/\n\s*\n/)`: blocks separated by blank (whitespace-only)
line runs. -/
def splitBlank (l : JStr) : List JStr := splitBlankAux (l.length + 1) [] l

end BlankSplit

section Timecode

/-- JS number-to-integer conversion (truncation toward zero), as
`Date.prototype.setSeconds` and friends apply it. -/
def jsTrunc (q : ℚ) : ℤ := if q < 0 then -⌊-q⌋ else ⌊q⌋

/-- The JS `%` operator on numbers: truncated remainder. -/
def jsMod (a b : ℚ) : ℚ := a - b * (jsTrunc (a / b) : ℚ)

/-- `secondsToSrtTime` (unnamed prototype, lines 45–51): seconds to
`HH:MM:SS,mmm`, the millisecond field by `Math.round`. -/
def secondsToSrtTime (seconds : ℚ) : JStr :=
  let h := ⌊seconds / 3600⌋
  let m := ⌊jsMod seconds 3600 / 60⌋
  let s := ⌊jsMod seconds 60⌋
  let ms := round ((seconds - (⌊seconds⌋ : ℚ)) * 1000)
  padStart (intToChars h) 2 '0' ++ [':'] ++ padStart (intToChars m) 2 '0' ++
    [':'] ++ padStart (intToChars s) 2 '0' ++ [','] ++ padStart (intToChars ms) 3 '0'

/-- `srtTimeToSeconds` (unnamed prototype, lines 39–43).  `none` models a
`NaN` result: JS destructuring leaves missing fields `undefined` and
`parseInt` of those is `NaN`, which poisons the sum; `ms || '0'` makes a
missing or empty millisecond field `'0'`. -/
def srtTimeToSeconds (timeStr : JStr) : Option ℚ :=
  let parts := splitOnChar ',' timeStr
  let time := parts.headD []
  let msStr : JStr := match parts.getD 1 [] with | [] => ['0'] | m => m
  let tparts := splitOnChar ':' time
  let pi : ℕ → Option ℤ := fun i =>
    match tparts.get? i with
    | some p => parseIntJS p
    | none => none
  match pi 0, pi 1, pi 2, parseIntJS msStr with
  | some h, some m, some s, some ms =>
    some ((h : ℚ) * 3600 + (m : ℚ) * 60 + (s : ℚ) + (ms : ℚ) / 1000)
  | _, _, _, _ => none

/-- A JS `NaN` (modelled `none`) read back as a rational where an entry
field needs one; no property below inspects the time value of a malformed
stamp, so the stand-in value is never observable. -/
def nanZero (o : Option ℚ) : ℚ := o.getD 0

/-- The characters `parseTime` keeps: `[0-9:.,]`. -/
def timeChar (c : Char) : Bool := c.isDigit || c = ':' || c = '.' || c = ','

/-- `String.prototype.replace(a, b)` with one-character patterns: only the
first occurrence is replaced. -/
def replaceFirst (a b : Char) : JStr → JStr
  | [] => []
  | c :: cs => if c = a then b :: cs else c :: replaceFirst a b cs

/-- `parseTime` (src/App.tsx, lines 65–73): trim, strip characters outside
`[0-9:.,]`, replace the first comma by a period, split on `:`; three
fields are `H:M:S`, two are `M:S`, anything else yields `0`; a `NaN`
component contributes `0`. -/
def parseTime (t : JStr) : ℚ :=
  let clean := (trimJS t).filter timeChar
  let parts := splitOnChar ':' (replaceFirst ',' '.' clean)
  match parts with
  | [hs, ms, ss] =>
    nanZero (parseFloatJS hs) * 3600 + nanZero (parseFloatJS ms) * 60 +
      nanZero (parseFloatJS ss)
  | [ms, ss] => nanZero (parseFloatJS ms) * 60 + nanZero (parseFloatJS ss)
  | _ => 0

end Timecode

section Part000

/-- `SubtitleItem` (unnamed prototype, lines 24–29).  The source field
`end` is a reserved word in Lean and is rendered `endSec`. -/
structure SubtitleItem where
  id : ℤ
  start : ℚ
  endSec : ℚ
  text : JStr
deriving DecidableEq, Repr

/-- The three-character needle `-->` of `includes('-->')`. -/
def arrowStr : JStr := ['-', '-', '>']

/-- The five-character separator of the timing line. -/
def arrowSep : JStr := [' ', '-', '-', '>', ' ']

/-- One block of `parseSRT` (unnamed prototype, lines 58–74); `count` is
`parsed.length` at the time the block is examined (the `id || parsed.length
+ 1` fallback, which JS falsiness also takes for an id of `0`). -/
def parseSRTBlock (block : JStr) (count : ℕ) : List SubtitleItem :=
  let lines := splitOnChar '\n' block
  if 3 ≤ lines.length then
    let idOpt := parseIntJS (lines.getD 0 [])
    let timeLine := lines.getD 1 []
    if !timeLine.isEmpty && containsSub arrowStr timeLine then
      let tparts := splitOnStr arrowSep timeLine
      [{ id := match idOpt with
             | some v => if v = 0 then ((count + 1 : ℕ) : ℤ) else v
             | none => ((count + 1 : ℕ) : ℤ),
         start := nanZero (srtTimeToSeconds (tparts.getD 0 [])),
         endSec := nanZero (srtTimeToSeconds (tparts.getD 1 [])),
         text := joinSep ['\n'] (lines.drop 2) }]
    else []
  else []

/-- The `blocks.forEach` accumulation of `parseSRT`. -/
def parseSRTBlocks : List JStr → List SubtitleItem → List SubtitleItem
  | [], parsed => parsed
  | b :: bs, parsed => parseSRTBlocks bs (parsed ++ parseSRTBlock b parsed.length)

/-- `parseSRT` (unnamed prototype, lines 54–76): normalise CRLF, trim,
split into blank-line-separated blocks, parse each block. -/
def parseSRT (srt : JStr) : List SubtitleItem :=
  parseSRTBlocks (splitBlank (trimJS (normalizeCRLF srt))) []

/-- One block of `stringifySRT`: the template
`i+1 ⟍n start --> end ⟍n text`. -/
def stringifyBlock (sub : SubtitleItem) (i : ℕ) : JStr :=
  natToChars (i + 1) ++ ['\n'] ++ secondsToSrtTime sub.start ++ arrowSep ++
    secondsToSrtTime sub.endSec ++ ['\n'] ++ sub.text

/-- The indexed `subs.map` of `stringifySRT`. -/
def stringifyBlocks : List SubtitleItem → ℕ → List JStr
  | [], _ => []
  | s :: ss, i => stringifyBlock s i :: stringifyBlocks ss (i + 1)

/-- `stringifySRT` (unnamed prototype, lines 78–82): renumber from 1 and
join the blocks with one blank line. -/
def stringifySRT (subs : List SubtitleItem) : JStr :=
  joinSep ['\n', '\n'] (stringifyBlocks subs 0)

/-- The clamped shift of one entry by `delta` (loop body of
`handleSubtitleShift`): add `delta` to `start` and to `end`, then clamp
each negative value to `0` independently. -/
def shiftEntry (delta : ℚ) (s : SubtitleItem) : SubtitleItem :=
  let st := s.start + delta
  let en := s.endSec + delta
  { s with start := if st < 0 then 0 else st, endSec := if en < 0 then 0 else en }

/-- The `for (let i = index; i < newSubs.length; i++)` loop: entries below
`index` are untouched, entries from `index` on are shifted and clamped. -/
def shiftFrom (delta : ℚ) : ℕ → List SubtitleItem → List SubtitleItem
  | _, [] => []
  | 0, s :: rest => shiftEntry delta s :: shiftFrom delta 0 rest
  | i + 1, s :: rest => s :: shiftFrom delta i rest

/-- `handleSubtitleShift` (unnamed prototype, lines 268–284).  A `NaN`
`newStart` (modelled `none`, the `isNaN` guard) returns the timeline
unchanged.  An out-of-range index would make the JS throw on
`newSubs[index].start`; the model returns the timeline unchanged there
(no property below examines that case). -/
def handleSubtitleShift (subs : List SubtitleItem) (index : ℕ)
    (newStart : Option ℚ) : List SubtitleItem :=
  match newStart with
  | none => subs
  | some ns =>
    if h : index < subs.length then
      let delta := ns - subs[index].start
      shiftFrom delta index subs
    else subs

/-- `activeSubtitle` (unnamed prototype, line 366):
`subtitles.find(s => currentTime >= s.start && currentTime <= s.end)`. -/
def activeSubtitle (subtitles : List SubtitleItem) (currentTime : ℚ) :
    Option SubtitleItem :=
  subtitles.find? fun s =>
    decide (s.start ≤ currentTime) && decide (currentTime ≤ s.endSec)

end Part000

section AppTsx

/-- `Subtitle` (src/App.tsx, lines 32–38).  `crypto.randomUUID()` is
modelled by the running entry count — no property below inspects ids. -/
structure Subtitle where
  id : ℕ
  startTime : ℚ
  endTime : ℚ
  text : JStr
  x : ℚ
deriving DecidableEq, Repr

/-- The loop state of the App.tsx `parseSRT`. -/
structure ParseState where
  currentStart : ℚ
  currentEnd : ℚ
  currentText : JStr
  hasTiming : Bool
  subs : List Subtitle
deriving DecidableEq, Repr

/-- `currentText.trim().replace(/[\n\s]+\d+\s*$/, '')`: strip one trailing
run of whitespace, digits and optional whitespace (the stray next-block
index guard). -/
def stripTrailingNum (t : JStr) : JStr :=
  let r1 := t.reverse.dropWhile wsChar
  let r2 := r1.dropWhile (·.isDigit)
  if r2.length ≠ r1.length && wsChar (r2.headD 'x') then
    (r2.dropWhile wsChar).reverse
  else t

/-- The cleanup applied before a push in the App.tsx `parseSRT`. -/
def cleanupText (t : JStr) : JStr := stripTrailingNum (trimJS t)

/-- The push of a pending entry (`if (hasTiming && currentText) { ... }`,
src/App.tsx lines 79–82 and 91–94). -/
def appFlush (st : ParseState) : List Subtitle :=
  if st.hasTiming && !st.currentText.isEmpty then
    let cleaned := cleanupText st.currentText
    if !cleaned.isEmpty then
      st.subs ++ [{ id := st.subs.length, startTime := st.currentStart,
                    endTime := st.currentEnd, text := cleaned, x := 50 }]
    else st.subs
  else st.subs

/-- The body of the line loop of the App.tsx `parseSRT` (lines 75–90). -/
def appStep (st : ParseState) (rawLine : JStr) : ParseState :=
  let line := trimJS rawLine
  if line.isEmpty then st
  else if containsSub arrowStr line then
    let subs := appFlush st
    let parts := splitOnStr arrowStr line
    { currentStart := parseTime (parts.getD 0 []),
      currentEnd := parseTime (parts.getD 1 []),
      currentText := [], hasTiming := true, subs := subs }
  else if line.all (·.isDigit) then st
  else if st.hasTiming then
    { st with currentText :=
        st.currentText ++ (if st.currentText.isEmpty then [] else [' ']) ++ line }
  else st

/-- `parseSRT` (src/App.tsx, lines 57–96): a line-based streaming parse. -/
def parseSRTApp (srt : JStr) : List Subtitle :=
  let lines := splitOnChar '\n' (normalizeCRLF srt)
  appFlush (lines.foldl appStep ⟨0, 0, [], false, []⟩)

/-- The failure of `handleSyncVideo` when a duration is unusable
(`throw new Error("Could not calculate durations.")`, the spec's
`InvalidDurationError`). -/
inductive SyncError where
  | invalidDuration
deriving DecidableEq, Repr

/-- The synchronization engine of `handleSyncVideo` (src/App.tsx, lines
301–356), restricted to its timeline effect: the falsy-duration guard
`if (!aiAudioDuration || !currentVideoDuration) throw`, the stretch ratio
`aiAudioDuration / currentVideoDuration`, and the rescale of every
entry's `startTime` and `endTime` by that ratio.  An error leaves the
timeline untouched (the JS `catch` only records a message). -/
def handleSyncVideo (subs : List Subtitle)
    (currentVideoDuration aiAudioDuration : ℚ) :
    Except SyncError (List Subtitle) :=
  if aiAudioDuration = 0 ∨ currentVideoDuration = 0 then
    .error .invalidDuration
  else
    let stretchRatio := aiAudioDuration / currentVideoDuration
    .ok (subs.map fun sub =>
      { sub with startTime := sub.startTime * stretchRatio,
                 endTime := sub.endTime * stretchRatio })

end AppTsx

section StatementDefs

/-- A default entry for positional (`getD`) statements. -/
def defaultItem : SubtitleItem := ⟨0, 0, 0, []⟩

/-- A default App.tsx entry for positional statements. -/
def defaultSub : Subtitle := ⟨0, 0, 0, [], 0⟩

/-- A block has a line containing the substring `-->`. -/
def hasArrowLine (b : JStr) : Bool :=
  (splitOnChar '\n' b).any (containsSub arrowStr)

/-- Interchange-clean caption text: non-empty, no carriage return, does
not end in whitespace, and every one of its lines contains a
non-whitespace character (so it contains no blank-line run). -/
def GoodText (t : JStr) : Prop :=
  t ≠ [] ∧ '\r' ∉ t ∧ wsChar (t.getLastD 'x') = false ∧
    ∀ l ∈ splitOnChar '\n' t, ∃ c ∈ l, wsChar c = false

/-- A nonnegative whole number of milliseconds, in seconds. -/
def MsTime (q : ℚ) : Prop := ∃ k : ℕ, q = (k : ℚ) / 1000

/-- The value a `start`/`end` of `q ≥ 0` seconds becomes after one
serialize–parse round trip: the integer part plus the rounded
millisecond count. -/
def msRound (q : ℚ) : ℚ :=
  (⌊q⌋ : ℚ) + (round ((q - (⌊q⌋ : ℚ)) * 1000) : ℤ) / 1000

/-- The entry a round trip of `e`, sitting at position `i`, produces. -/
def rtEntry (e : SubtitleItem) (i : ℕ) : SubtitleItem :=
  ⟨(i + 1 : ℕ), msRound e.start, msRound e.endSec, e.text⟩

/-- The indexed image of a round-tripped timeline. -/
def rtList : List SubtitleItem → ℕ → List SubtitleItem
  | [], _ => []
  | e :: es, i => rtEntry e i :: rtList es (i + 1)

/-- A block string whose every line contains a non-whitespace character
(such blocks pass through the blank-line splitter unsplit). -/
def GoodBlock (b : JStr) : Prop :=
  ∀ l ∈ splitOnChar '\n' b, ∃ c ∈ l, wsChar c = false

/-- Chronological ordering of a timeline by `start`. -/
def Chronological (subs : List SubtitleItem) : Prop :=
  subs.Pairwise fun a b => a.start ≤ b.start

/-- Rescaling one App.tsx entry's timings by `r`, all else untouched. -/
def scaleSub (r : ℚ) (sub : Subtitle) : Subtitle :=
  { sub with startTime := sub.startTime * r, endTime := sub.endTime * r }

end StatementDefs

/-! ## Splitting on a single character -/

theorem splitOnChar_ne_nil (sep : Char) (s : JStr) : splitOnChar sep s ≠ [] := by
  induction s with
  | nil => simp [splitOnChar]
  | cons c cs ih =>
    unfold splitOnChar
    split
    · simp
    · cases h : splitOnChar sep cs <;> simp

theorem joinSep_cons_cons (sep : JStr) (c : Char) (p : JStr) (ps : List JStr) :
    joinSep sep ((c :: p) :: ps) = c :: joinSep sep (p :: ps) := by
  cases ps <;> simp [joinSep]

theorem joinSep_splitOnChar (sep : Char) (s : JStr) :
    joinSep [sep] (splitOnChar sep s) = s := by
  induction s with
  | nil => simp [splitOnChar, joinSep]
  | cons c cs ih =>
    unfold splitOnChar
    split
    · rename_i hcs
      rcases h : splitOnChar sep cs with - | ⟨p, ps⟩
      · exact absurd h (splitOnChar_ne_nil sep cs)
      · rw [h] at ih
        subst hcs
        simpa [joinSep] using ih
    · rcases h : splitOnChar sep cs with - | ⟨p, ps⟩
      · exact absurd h (splitOnChar_ne_nil sep cs)
      · rw [h] at ih
        rw [joinSep_cons_cons, ih]

theorem splitOnChar_of_not_mem {sep : Char} {s : JStr} (h : sep ∉ s) :
    splitOnChar sep s = [s] := by
  induction s with
  | nil => rfl
  | cons c cs ih =>
    unfold splitOnChar
    rw [if_neg (by rintro rfl; exact h (List.mem_cons_self _ _))]
    rw [ih (fun hm => h (List.mem_cons_of_mem _ hm))]

theorem splitOnChar_append {sep : Char} {a : JStr} (t : JStr) (h : sep ∉ a) :
    splitOnChar sep (a ++ sep :: t) = a :: splitOnChar sep t := by
  induction a with
  | nil => simp [splitOnChar]
  | cons c a' ih =>
    have hc : c ≠ sep := by rintro rfl; exact h (List.mem_cons_self _ _)
    have ha' : sep ∉ a' := fun hm => h (List.mem_cons_of_mem _ hm)
    simp only [List.cons_append, splitOnChar, if_neg hc]
    rw [List.append_eq, ih ha']

theorem not_mem_of_mem_splitOnChar {sep : Char} {s p : JStr}
    (hp : p ∈ splitOnChar sep s) : sep ∉ p := by
  induction s generalizing p with
  | nil =>
    simp only [splitOnChar, List.mem_singleton] at hp
    subst hp; simp
  | cons c cs ih =>
    unfold splitOnChar at hp
    split at hp
    · rcases List.mem_cons.1 hp with rfl | hm
      · simp
      · exact ih hm
    · rename_i hc
      rcases h : splitOnChar sep cs with - | ⟨q, qs⟩
      · exact absurd h (splitOnChar_ne_nil sep cs)
      · rw [h] at hp
        rcases List.mem_cons.1 hp with rfl | hm
        · intro hmem
          rcases List.mem_cons.1 hmem with rfl | hq
          · exact hc rfl
          · exact ih (h ▸ List.mem_cons_self _ _) hq
        · exact ih (h ▸ List.mem_cons_of_mem _ hm)

/-! ## Decimal digits -/

theorem digitChr_isDigit (n : ℕ) : (digitChr n).isDigit = true := by
  unfold digitChr
  split <;> decide

theorem digitVal_digitChr {n : ℕ} (h : n < 10) : digitVal (digitChr n) = n := by
  interval_cases n <;> decide

theorem wsChar_eq_false_of_isDigit {c : Char} (h : c.isDigit = true) :
    wsChar c = false := by
  by_contra hw
  rw [Bool.not_eq_false] at hw
  unfold wsChar at hw
  simp only [Bool.or_eq_true, decide_eq_true_eq] at hw
  rcases hw with ((((rfl | rfl) | rfl) | rfl) | rfl) | rfl <;> exact absurd h (by decide)

theorem digitsVal_cons (c : Char) (s : JStr) :
    digitsVal (c :: s) = s.foldl (fun acc d => acc * 10 + digitVal d) (digitVal c) := by
  simp only [digitsVal, List.foldl_cons, Nat.zero_mul, Nat.zero_add]

theorem digitsVal_foldl_acc (s : JStr) (a : ℕ) :
    s.foldl (fun acc d => acc * 10 + digitVal d) a = a * 10 ^ s.length + digitsVal s := by
  induction s generalizing a with
  | nil => simp [digitsVal]
  | cons c s ih =>
    simp only [List.foldl_cons, List.length_cons]
    rw [ih, digitsVal_cons, ih (digitVal c)]
    ring

theorem digitsVal_append (s t : JStr) :
    digitsVal (s ++ t) = digitsVal s * 10 ^ t.length + digitsVal t := by
  simp only [digitsVal, List.foldl_append]
  exact digitsVal_foldl_acc t _

theorem digitsVal_replicate_zero (k : ℕ) :
    digitsVal (List.replicate k '0') = 0 := by
  induction k with
  | zero => rfl
  | succ k ih =>
    rw [List.replicate_succ]
    rw [digitsVal_cons, digitsVal_foldl_acc]
    simpa [digitVal] using ih

theorem natToCharsAux_spec :
    ∀ fuel n, n < 10 ^ (fuel + 1) →
      digitsVal (natToCharsAux (fuel + 1) n) = n ∧ natToCharsAux (fuel + 1) n ≠ [] ∧
        ∀ c ∈ natToCharsAux (fuel + 1) n, c.isDigit = true
  | fuel, n, h => by
    unfold natToCharsAux
    split
    · rename_i h10
      refine ⟨?_, by simp, ?_⟩
      · rw [digitsVal_cons]
        simpa using digitVal_digitChr h10
      · intro c hc
        rcases List.mem_singleton.1 hc with rfl
        exact digitChr_isDigit n
    · rename_i h10
      push_neg at h10
      match fuel, h with
      | 0, h => exact absurd (by omega : n < 10) (by omega)
      | f + 1, h =>
        have hdiv : n / 10 < 10 ^ (f + 1) := by
          rw [Nat.div_lt_iff_lt_mul (by norm_num)]
          calc n < 10 ^ (f + 1 + 1) := h
          _ = 10 ^ (f + 1) * 10 := by ring
        obtain ⟨hv, hne, hdig⟩ := natToCharsAux_spec f (n / 10) hdiv
        refine ⟨?_, by simp [hne], ?_⟩
        · rw [digitsVal_append, hv]
          simp only [List.length_cons, List.length_nil, pow_one, zero_add, pow_one]
          rw [digitsVal_cons]
          simp only [List.foldl_nil]
          rw [digitVal_digitChr (Nat.mod_lt n (by norm_num))]
          omega
        · intro c hc
          rcases List.mem_append.1 hc with hm | hm
          · exact hdig c hm
          · rcases List.mem_singleton.1 hm with rfl
            exact digitChr_isDigit _

theorem lt_ten_pow_succ (n : ℕ) : n < 10 ^ (n + 1) := by
  calc n < 2 ^ n := Nat.lt_two_pow n
  _ ≤ 10 ^ n := Nat.pow_le_pow_left (by norm_num) n
  _ < 10 ^ (n + 1) := Nat.pow_lt_pow_succ (by norm_num)

theorem digitsVal_natToChars (n : ℕ) : digitsVal (natToChars n) = n :=
  (natToCharsAux_spec n n (lt_ten_pow_succ n)).1

theorem natToChars_ne_nil (n : ℕ) : natToChars n ≠ [] :=
  (natToCharsAux_spec n n (lt_ten_pow_succ n)).2.1

theorem natToChars_all_digit (n : ℕ) : ∀ c ∈ natToChars n, c.isDigit = true :=
  (natToCharsAux_spec n n (lt_ten_pow_succ n)).2.2

theorem ne_of_isDigit {c d : Char} (hc : c.isDigit = true)
    (hd : d.isDigit = false) : c ≠ d := by
  rintro rfl
  rw [hc] at hd
  exact absurd hd (by decide)

theorem takeWhile_isDigit_self {s : JStr} (hd : ∀ c ∈ s, c.isDigit = true) :
    s.takeWhile (·.isDigit) = s := by
  induction s with
  | nil => rfl
  | cons c cs ih =>
    rw [List.takeWhile_cons]
    simp [hd c (List.mem_cons_self _ _), ih fun x hx => hd x (List.mem_cons_of_mem _ hx)]

theorem parseIntJS_digits {s : JStr} (hne : s ≠ []) (hd : ∀ c ∈ s, c.isDigit = true) :
    parseIntJS s = some ((digitsVal s : ℕ) : ℤ) := by
  rcases s with - | ⟨c, cs⟩
  · exact absurd rfl hne
  have hcd := hd c (List.mem_cons_self _ _)
  have hdrop : (c :: cs).dropWhile wsChar = c :: cs := by
    rw [List.dropWhile_cons, wsChar_eq_false_of_isDigit hcd]
    simp
  have hpre : parseNatPrefix (c :: cs) = some (digitsVal (c :: cs)) := by
    unfold parseNatPrefix
    rw [takeWhile_isDigit_self hd]
    simp
  unfold parseIntJS
  simp only [hdrop, List.headD_cons]
  rw [if_neg (ne_of_isDigit hcd (by decide)), if_neg (ne_of_isDigit hcd (by decide))]
  rw [hpre]
  rfl

theorem padStart_all_digit {s : JStr} (n : ℕ) (hd : ∀ c ∈ s, c.isDigit = true) :
    ∀ c ∈ padStart s n '0', c.isDigit = true := by
  intro c hc
  rcases List.mem_append.1 hc with hm | hm
  · rcases List.eq_of_mem_replicate hm with rfl
    decide
  · exact hd c hm

theorem digitsVal_padStart_zero (s : JStr) (n : ℕ) :
    digitsVal (padStart s n '0') = digitsVal s := by
  unfold padStart
  rw [digitsVal_append, digitsVal_replicate_zero]
  simp

theorem padStart_ne_nil {s : JStr} (h : s ≠ []) (n : ℕ) (c : Char) :
    padStart s n c ≠ [] := by
  unfold padStart
  simp [h]

theorem parseIntJS_padStart_natToChars (n w : ℕ) :
    parseIntJS (padStart (natToChars n) w '0') = some ((n : ℕ) : ℤ) := by
  rw [parseIntJS_digits (padStart_ne_nil (natToChars_ne_nil n) w '0')
    (padStart_all_digit w (natToChars_all_digit n))]
  rw [digitsVal_padStart_zero, digitsVal_natToChars]

/-! ## The JS modulus and floors -/

theorem jsTrunc_of_nonneg {q : ℚ} (h : 0 ≤ q) : jsTrunc q = ⌊q⌋ := by
  unfold jsTrunc
  rw [if_neg (not_lt.2 h)]

theorem jsMod_eq_fract {a b : ℚ} (ha : 0 ≤ a) (hb : 0 < b) :
    jsMod a b = b * Int.fract (a / b) := by
  unfold jsMod
  rw [jsTrunc_of_nonneg (div_nonneg ha hb.le), Int.fract]
  field_simp

theorem jsMod_nonneg {a b : ℚ} (ha : 0 ≤ a) (hb : 0 < b) : 0 ≤ jsMod a b := by
  rw [jsMod_eq_fract ha hb]
  exact mul_nonneg hb.le (Int.fract_nonneg _)

theorem jsMod_lt {a b : ℚ} (ha : 0 ≤ a) (hb : 0 < b) : jsMod a b < b := by
  rw [jsMod_eq_fract ha hb]
  calc b * Int.fract (a / b) < b * 1 :=
        mul_lt_mul_of_pos_left (Int.fract_lt_one _) hb
  _ = b := mul_one b

theorem intToChars_of_nonneg {i : ℤ} (h : 0 ≤ i) :
    intToChars i = natToChars i.toNat := by
  unfold intToChars
  rw [if_neg (not_lt.2 h)]

/-! ## The shape of `secondsToSrtTime` -/

theorem floor_div_nat_of_nonneg {q : ℚ} (hq : 0 ≤ q) {d : ℕ} :
    ⌊q / (d : ℚ)⌋ = (⌊q⌋₊ / d : ℕ) := by
  rw [← Int.natCast_floor_eq_floor (by positivity), Nat.floor_div_nat]

theorem secondsToSrtTime_decomp {q : ℚ} (hq : 0 ≤ q) :
    ∃ hh mm ss ms : ℕ,
      secondsToSrtTime q =
        padStart (natToChars hh) 2 '0' ++ [':'] ++ padStart (natToChars mm) 2 '0' ++
          [':'] ++ padStart (natToChars ss) 2 '0' ++ [','] ++
          padStart (natToChars ms) 3 '0' ∧
      mm < 60 ∧ ss < 60 ∧
      ((hh * 3600 + mm * 60 + ss : ℕ) : ℤ) = ⌊q⌋ ∧
      ((hh : ℤ) = ⌊q / 3600⌋) ∧
      ((ms : ℤ) = round ((q - (⌊q⌋ : ℚ)) * 1000)) := by
  have hA : (0 : ℤ) ≤ ⌊q⌋ := Int.floor_nonneg.2 hq
  set n : ℕ := ⌊q⌋₊ with hn
  have hAn : ⌊q⌋ = (n : ℤ) := (Int.natCast_floor_eq_floor hq).symm
  have e1 : ⌊q / 3600⌋ = ((n / 3600 : ℕ) : ℤ) := by
    rw [show (3600 : ℚ) = ((3600 : ℕ) : ℚ) by norm_num]
    exact floor_div_nat_of_nonneg hq
  have hjm3600 : jsMod q 3600 = q - ((3600 * (n / 3600) : ℕ) : ℚ) := by
    unfold jsMod
    rw [jsTrunc_of_nonneg (by positivity), e1]
    norm_cast
  have hdivle : 3600 * (n / 3600) ≤ n := Nat.mul_div_le n 3600
  have e2 : ⌊jsMod q 3600⌋ = ((n - 3600 * (n / 3600) : ℕ) : ℤ) := by
    rw [hjm3600, Int.floor_sub_nat, hAn]
    omega
  have hjmnn : 0 ≤ jsMod q 3600 := jsMod_nonneg hq (by norm_num)
  have e3 : ⌊jsMod q 3600 / 60⌋ = (((n - 3600 * (n / 3600)) / 60 : ℕ) : ℤ) := by
    rw [show (60 : ℚ) = ((60 : ℕ) : ℚ) by norm_num,
      floor_div_nat_of_nonneg hjmnn]
    congr 2
    have : (⌊jsMod q 3600⌋₊ : ℤ) = ((n - 3600 * (n / 3600) : ℕ) : ℤ) := by
      rw [Int.natCast_floor_eq_floor hjmnn, e2]
    exact_mod_cast this
  have e4' : ⌊q / 60⌋ = ((n / 60 : ℕ) : ℤ) := by
    rw [show (60 : ℚ) = ((60 : ℕ) : ℚ) by norm_num]
    exact floor_div_nat_of_nonneg hq
  have hjm60 : jsMod q 60 = q - ((60 * (n / 60) : ℕ) : ℚ) := by
    unfold jsMod
    rw [jsTrunc_of_nonneg (by positivity), e4']
    norm_cast
  have e4 : ⌊jsMod q 60⌋ = ((n - 60 * (n / 60) : ℕ) : ℤ) := by
    rw [hjm60, Int.floor_sub_nat, hAn]
    have : 60 * (n / 60) ≤ n := Nat.mul_div_le n 60
    omega
  have hmsnn : (0 : ℤ) ≤ round ((q - (⌊q⌋ : ℚ)) * 1000) := by
    rw [round_eq]
    have h1 : (0 : ℚ) ≤ (q - (⌊q⌋ : ℚ)) * 1000 + 1 / 2 := by
      have := Int.floor_le q
      nlinarith
    exact Int.floor_nonneg.2 h1
  refine ⟨n / 3600, (n - 3600 * (n / 3600)) / 60, n - 60 * (n / 60),
    (round ((q - (⌊q⌋ : ℚ)) * 1000)).toNat, ?_, ?_, ?_, ?_, ?_, ?_⟩
  · simp only [secondsToSrtTime]
    rw [e1, e3, e4]
    rw [intToChars_of_nonneg (by positivity), intToChars_of_nonneg (by positivity),
      intToChars_of_nonneg (by positivity), intToChars_of_nonneg hmsnn]
    simp only [Int.toNat_natCast]
  · -- minutes below 60: the floored quotient of a value below 3600
    have h1 : jsMod q 3600 < 3600 := jsMod_lt hq (by norm_num)
    have h2 : ((n - 3600 * (n / 3600) : ℕ) : ℤ) < 3600 := by
      rw [← e2]
      exact Int.floor_lt.2 (by push_cast; linarith)
    omega
  · have h1 : jsMod q 60 < 60 := jsMod_lt hq (by norm_num)
    have h2 : ((n - 60 * (n / 60) : ℕ) : ℤ) < 60 := by
      rw [← e4]
      exact Int.floor_lt.2 (by push_cast; linarith)
    omega
  · rw [hAn]
    have h60 : 60 * (n / 60) ≤ n := Nat.mul_div_le n 60
    push_cast
    omega
  · exact_mod_cast e1.symm
  · exact Int.toNat_of_nonneg hmsnn

theorem not_mem_of_all_digit {s : JStr} (hd : ∀ c ∈ s, c.isDigit = true)
    {d : Char} (hdd : d.isDigit = false) : d ∉ s := by
  intro hm
  rw [hd d hm] at hdd
  exact absurd hdd (by decide)

theorem srtTimeToSeconds_roundtrip {q : ℚ} (hq : 0 ≤ q) :
    srtTimeToSeconds (secondsToSrtTime q) = some (msRound q) := by
  obtain ⟨hh, mm, ss, ms, hstr, hmm, hss, hsum, hhq, hms⟩ := secondsToSrtTime_decomp hq
  set H := padStart (natToChars hh) 2 '0' with hH
  set M := padStart (natToChars mm) 2 '0' with hM
  set S := padStart (natToChars ss) 2 '0' with hS
  set MS := padStart (natToChars ms) 3 '0' with hMS
  have hHd : ∀ c ∈ H, c.isDigit = true := padStart_all_digit _ (natToChars_all_digit hh)
  have hMd : ∀ c ∈ M, c.isDigit = true := padStart_all_digit _ (natToChars_all_digit mm)
  have hSd : ∀ c ∈ S, c.isDigit = true := padStart_all_digit _ (natToChars_all_digit ss)
  have hMSd : ∀ c ∈ MS, c.isDigit = true := padStart_all_digit _ (natToChars_all_digit ms)
  set T : JStr := H ++ [':'] ++ M ++ [':'] ++ S with hT
  have hTnc : ',' ∉ T := by
    intro hm
    simp only [hT, List.append_assoc, List.mem_append, List.mem_singleton] at hm
    rcases hm with hm | hm | hm | hm | hm
    · exact not_mem_of_all_digit hHd (by decide) hm
    · exact absurd hm (by decide)
    · exact not_mem_of_all_digit hMd (by decide) hm
    · exact absurd hm (by decide)
    · exact not_mem_of_all_digit hSd (by decide) hm
  have hMSnc : ',' ∉ MS := not_mem_of_all_digit hMSd (by decide)
  have hwhole : secondsToSrtTime q = T ++ ',' :: MS := by
    rw [hstr]
    simp [hT, List.append_assoc]
  have hMSne : MS ≠ [] := padStart_ne_nil (natToChars_ne_nil ms) 3 '0'
  obtain ⟨mc, mcs, hMSc⟩ := List.exists_cons_of_ne_nil hMSne
  have hT2 : T = H ++ ':' :: (M ++ ':' :: S) := by
    simp [hT, List.append_assoc]
  have htsplit : splitOnChar ':' T = [H, M, S] := by
    rw [hT2, splitOnChar_append _ (not_mem_of_all_digit hHd (by decide)),
      splitOnChar_append _ (not_mem_of_all_digit hMd (by decide)),
      splitOnChar_of_not_mem (not_mem_of_all_digit hSd (by decide))]
  rw [hwhole]
  unfold srtTimeToSeconds
  rw [splitOnChar_append _ hTnc, splitOnChar_of_not_mem hMSnc]
  simp only [List.headD_cons, List.getD_cons_succ, List.getD_cons_zero, htsplit]
  rw [hMSc]
  simp only [List.get?_cons_zero, List.get?_cons_succ]
  rw [← hMSc]
  rw [hH, hM, hS, hMS, parseIntJS_padStart_natToChars, parseIntJS_padStart_natToChars,
    parseIntJS_padStart_natToChars, parseIntJS_padStart_natToChars]
  simp only [Option.some.injEq]
  have hsumQ : ((hh : ℚ) * 3600 + (mm : ℚ) * 60 + (ss : ℚ)) = ((⌊q⌋ : ℤ) : ℚ) := by
    rw [← hsum]
    push_cast
    ring
  have hmsQ : ((ms : ℚ)) = ((round ((q - (⌊q⌋ : ℚ)) * 1000) : ℤ) : ℚ) := by
    exact_mod_cast congrArg (fun z : ℤ => (z : ℚ)) hms
  unfold msRound
  push_cast at hsumQ hmsQ ⊢
  rw [hsumQ, hmsQ]

theorem msRound_eq_self {q : ℚ} (h : MsTime q) : msRound q = q := by
  obtain ⟨k, rfl⟩ := h
  have hfl : ⌊((k : ℚ) / 1000)⌋ = (k : ℤ) / 1000 := by
    rw [show ((k : ℚ)) = (((k : ℤ)) : ℚ) by norm_cast,
      show ((1000 : ℚ)) = (((1000 : ℕ)) : ℚ) by norm_num]
    exact Rat.floor_intCast_div_natCast k 1000
  have hdm := Int.ediv_add_emod (k : ℤ) 1000
  have hdmQ : (1000 : ℚ) * (((k : ℤ) / 1000 : ℤ) : ℚ) + (((k : ℤ) % 1000 : ℤ) : ℚ) =
      (k : ℚ) := by
    exact_mod_cast hdm
  have hfrac : ((k : ℚ) / 1000 - (((k : ℤ) / 1000 : ℤ) : ℚ)) * 1000 =
      (((k : ℤ) % 1000 : ℤ) : ℚ) := by
    have : (((k : ℤ) % 1000 : ℤ) : ℚ) = (k : ℚ) - 1000 * (((k : ℤ) / 1000 : ℤ) : ℚ) := by
      linarith
    rw [this]
    ring
  unfold msRound
  rw [hfl, hfrac, round_intCast]
  field_simp
  linarith

/-! ## Normalisation, trimming, substring search, string split -/

theorem normalizeCRLF_eq_self {s : JStr} (h : '\r' ∉ s) : normalizeCRLF s = s := by
  induction s using normalizeCRLF.induct with
  | case1 => rfl
  | case2 c => rfl
  | case3 c d rest hcd ih =>
    exact absurd hcd.1 (by rintro rfl; exact h (List.mem_cons_self _ _))
  | case4 c d rest hcd ih =>
    unfold normalizeCRLF
    rw [if_neg hcd]
    exact congrArg (c :: ·) (ih fun hm => h (List.mem_cons_of_mem _ hm))

theorem dropWhile_wsChar_eq_self {s : JStr} (h : wsChar (s.headD 'x') = false) :
    s.dropWhile wsChar = s := by
  cases s with
  | nil => rfl
  | cons c cs =>
    rw [List.headD_cons] at h
    rw [List.dropWhile_cons, h]
    simp

theorem trimJS_eq_self {s : JStr} (hhead : wsChar (s.headD 'x') = false)
    (hlast : wsChar (s.getLastD 'x') = false) : trimJS s = s := by
  unfold trimJS
  rw [dropWhile_wsChar_eq_self hhead]
  have hrev : wsChar (s.reverse.headD 'x') = false := by
    cases s with
    | nil => simpa using hlast
    | cons c cs =>
      have : (c :: cs).reverse.headD 'x' = (c :: cs).getLastD 'x' := by
        rw [List.getLastD_eq_getLast?, ← List.head?_reverse]
        cases h : (c :: cs).reverse with
        | nil =>
          have hlen := congrArg List.length h
          rw [List.length_reverse] at hlen
          simp at hlen
        | cons d ds => simp
      rw [this]
      exact hlast
  rw [dropWhile_wsChar_eq_self hrev, List.reverse_reverse]

theorem containsSub_iff (pat s : JStr) :
    containsSub pat s = true ↔ ∃ a b : JStr, s = a ++ pat ++ b := by
  induction s with
  | nil =>
    simp only [containsSub, List.isEmpty_iff]
    constructor
    · rintro rfl
      exact ⟨[], [], rfl⟩
    · rintro ⟨a, b, hab⟩
      rcases List.append_eq_nil.1 hab.symm with ⟨h1, -⟩
      rcases List.append_eq_nil.1 h1 with ⟨-, h2⟩
      exact h2
  | cons c cs ih =>
    simp only [containsSub, Bool.or_eq_true]
    constructor
    · rintro (hpre | hrec)
      · obtain ⟨t, ht⟩ := List.isPrefixOf_iff_prefix.1 hpre
        exact ⟨[], t, by rw [List.nil_append]; exact ht.symm⟩
      · obtain ⟨a, b, hab⟩ := ih.1 hrec
        exact ⟨c :: a, b, by simp [hab]⟩
    · rintro ⟨a, b, hab⟩
      rcases a with - | ⟨a0, as⟩
      · left
        rw [List.nil_append] at hab
        exact List.isPrefixOf_iff_prefix.2 ⟨b, hab.symm⟩
      · right
        rw [List.cons_append, List.cons_append] at hab
        injection hab with h1 h2
        exact ih.2 ⟨as, b, by rw [h2, List.append_assoc]⟩

theorem containsSub_of_parts {pat s a b : JStr} (h : s = a ++ pat ++ b) :
    containsSub pat s = true :=
  (containsSub_iff pat s).2 ⟨a, b, h⟩

theorem splitOnStrAux_nil (sep acc : JStr) (fuel : ℕ) :
    splitOnStrAux sep (fuel + 1) acc [] = [acc.reverse] := rfl

theorem splitOnStrAux_cons (sep acc : JStr) (fuel : ℕ) (c : Char) (cs : JStr) :
    splitOnStrAux sep (fuel + 1) acc (c :: cs) =
      if sep.isPrefixOf (c :: cs) then
        acc.reverse :: splitOnStrAux sep fuel [] ((c :: cs).drop sep.length)
      else splitOnStrAux sep fuel (c :: acc) cs := rfl

theorem splitOnStrAux_scan {sep : JStr} {c0 : Char} {sep' : JStr}
    (hsep : sep = c0 :: sep') :
    ∀ a : JStr, (∀ c ∈ a, c ≠ c0) → ∀ fuel acc rest,
      splitOnStrAux sep (a.length + fuel) acc (a ++ rest) =
        splitOnStrAux sep fuel (a.reverseAux acc) rest := by
  intro a
  induction a with
  | nil =>
    intro _ fuel acc rest
    rw [show ([] : JStr).length + fuel = fuel from by simp, List.nil_append]
    rfl
  | cons c a' ih =>
    intro ha fuel acc rest
    have hc : c ≠ c0 := ha c (List.mem_cons_self _ _)
    have hnp : sep.isPrefixOf (c :: (a' ++ rest)) = false := by
      rw [hsep]
      simp only [List.isPrefixOf, Bool.and_eq_false_iff]
      left
      rw [beq_eq_false_iff_ne]
      exact fun h => hc h.symm
    have hlen : (c :: a').length + fuel = (a'.length + fuel) + 1 := by
      simp
      omega
    rw [List.cons_append, hlen, splitOnStrAux_cons, hnp]
    simp only [Bool.false_eq_true, if_false]
    exact ih (fun x hx => ha x (List.mem_cons_of_mem _ hx)) fuel (c :: acc) rest

theorem splitOnStrAux_sep_step {sep b acc : JStr} {fuel : ℕ} (hne : sep ≠ []) :
    splitOnStrAux sep (fuel + 1) acc (sep ++ b) =
      acc.reverse :: splitOnStrAux sep fuel [] b := by
  obtain ⟨s0, ss, rfl⟩ := List.exists_cons_of_ne_nil hne
  rw [List.cons_append, splitOnStrAux_cons]
  rw [if_pos (List.isPrefixOf_iff_prefix.2 ⟨b, by simp⟩)]
  congr 1
  rw [← List.cons_append]
  rw [List.drop_left]

theorem splitOnStrAux_last {sep b acc : JStr} {c0 : Char} {sep' : JStr}
    (hsep : sep = c0 :: sep') (hb : ∀ c ∈ b, c ≠ c0) (fuel : ℕ) :
    splitOnStrAux sep (b.length + (fuel + 1)) acc b = [acc.reverse ++ b] := by
  have hs := splitOnStrAux_scan hsep b hb (fuel + 1) acc []
  rw [List.append_nil] at hs
  rw [hs, splitOnStrAux_nil]
  simp [List.reverseAux_eq, List.reverse_append]

theorem splitOnStr_two_pieces {sep a b : JStr} {c0 : Char} {sep' : JStr}
    (hsep : sep = c0 :: sep') (ha : ∀ c ∈ a, c ≠ c0) (hb : ∀ c ∈ b, c ≠ c0) :
    splitOnStr sep (a ++ sep ++ b) = [a, b] := by
  unfold splitOnStr
  have hs1 : 1 ≤ sep.length := by rw [hsep]; simp
  have hlen : (a ++ sep ++ b).length + 1 =
      a.length + ((b.length + ((sep.length - 1) + 1)) + 1) := by
    simp [List.length_append]
    omega
  rw [hlen, List.append_assoc, splitOnStrAux_scan hsep a ha _ [] (sep ++ b)]
  rw [splitOnStrAux_sep_step (by rw [hsep]; simp)]
  rw [splitOnStrAux_last hsep hb (sep.length - 1)]
  simp [List.reverseAux_eq]

/-! ## The blank-line splitter -/

theorem splitBlankAux_nil (acc : JStr) (fuel : ℕ) :
    splitBlankAux (fuel + 1) acc [] = [acc.reverse] := rfl

theorem splitBlankAux_cons (fuel : ℕ) (acc : JStr) (c : Char) (cs : JStr) :
    splitBlankAux (fuel + 1) acc (c :: cs) =
      match sepMatch (c :: cs) with
      | some rest => acc.reverse :: splitBlankAux fuel [] rest
      | none => splitBlankAux fuel (c :: acc) cs := rfl

theorem sepMatch_cons_ne {c : Char} (cs : JStr) (h : c ≠ '\n') :
    sepMatch (c :: cs) = none := by
  simp only [sepMatch]
  rw [if_neg h]

theorem sepMatch_nl_none {cs : JStr} (h : ∀ c ∈ cs.takeWhile wsChar, c ≠ '\n') :
    sepMatch ('\n' :: cs) = none := by
  simp only [sepMatch]
  rw [if_pos trivial]
  have hfi : (cs.takeWhile wsChar).reverse.findIdx? (· = '\n') = none := by
    rw [List.findIdx?_eq_none_iff]
    intro x hx
    simp only [decide_eq_false_iff_not]
    exact h x (List.mem_reverse.1 hx)
  rw [hfi]

theorem findIdx?_append_last {p : Char → Bool} :
    ∀ (xs : List Char) (y : Char), (∀ x ∈ xs, p x = false) → p y = true →
      ∀ i, List.findIdx? p (xs ++ [y]) i = some (i + xs.length) := by
  intro xs
  induction xs with
  | nil =>
    intro y _ hy i
    simp [List.findIdx?_cons, hy]
  | cons x xs ih =>
    intro y hxs hy i
    rw [List.cons_append, List.findIdx?_cons, hxs x (List.mem_cons_self _ _)]
    simp only [Bool.false_eq_true, if_false]
    rw [ih y (fun z hz => hxs z (List.mem_cons_of_mem _ hz)) hy (i + 1)]
    congr 1
    simp
    omega

theorem sepMatch_junction {r : JStr} (h : ∀ c ∈ r.takeWhile wsChar, c ≠ '\n') :
    sepMatch ('\n' :: '\n' :: r) = some r := by
  simp only [sepMatch]
  rw [if_pos trivial]
  have hw : ('\n' :: r).takeWhile wsChar = '\n' :: r.takeWhile wsChar := by
    rw [List.takeWhile_cons]
    simp [wsChar]
  rw [hw]
  have hrev : ('\n' :: r.takeWhile wsChar).reverse =
      (r.takeWhile wsChar).reverse ++ ['\n'] := by
    simp
  rw [hrev]
  have hfi := @findIdx?_append_last (fun x => decide (x = '\n'))
    (r.takeWhile wsChar).reverse '\n'
    (fun x hx => by
      simp only [decide_eq_false_iff_not]
      exact h x (List.mem_reverse.1 hx))
    (by simp) 0
  rw [hfi]
  simp only [Nat.zero_add, List.length_reverse, List.length_cons]
  congr 1
  have : (r.takeWhile wsChar).length + 1 - (r.takeWhile wsChar).length = 1 := by omega
  rw [this]
  rfl

theorem splitBlankAux_scan :
    ∀ l : JStr, '\n' ∉ l → ∀ fuel acc rest,
      splitBlankAux (l.length + fuel) acc (l ++ rest) =
        splitBlankAux fuel (l.reverseAux acc) rest := by
  intro l
  induction l with
  | nil =>
    intro _ fuel acc rest
    rw [show ([] : JStr).length + fuel = fuel from by simp, List.nil_append]
    rfl
  | cons c l' ih =>
    intro hl fuel acc rest
    have hc : c ≠ '\n' := by rintro rfl; exact hl (List.mem_cons_self _ _)
    have hlen : (c :: l').length + fuel = (l'.length + fuel) + 1 := by
      simp
      omega
    rw [List.cons_append, hlen, splitBlankAux_cons, sepMatch_cons_ne _ hc]
    exact ih (fun hm => hl (List.mem_cons_of_mem _ hm)) fuel (c :: acc) rest

theorem takeWhile_ws_no_nl {l X : JStr} (hnl : '\n' ∉ l)
    (hnw : ∃ c ∈ l, wsChar c = false) :
    ∀ c ∈ (l ++ X).takeWhile wsChar, c ≠ '\n' := by
  have hne : (l.takeWhile wsChar).length ≠ l.length := by
    intro hlen
    have heq : l.takeWhile wsChar = l :=
      (List.takeWhile_sublist wsChar).eq_of_length hlen
    obtain ⟨c, hcm, hcw⟩ := hnw
    have := List.mem_takeWhile_imp (heq ▸ hcm)
    rw [this] at hcw
    exact absurd hcw (by decide)
  rw [List.takeWhile_append, if_neg hne]
  intro c hc heq
  exact hnl (heq ▸ (List.takeWhile_sublist wsChar).subset hc)

theorem splitBlankAux_nl_step {cs : JStr}
    (h : ∀ c ∈ cs.takeWhile wsChar, c ≠ '\n') (fuel : ℕ) (acc : JStr) :
    splitBlankAux (fuel + 1) acc ('\n' :: cs) =
      splitBlankAux fuel ('\n' :: acc) cs := by
  rw [splitBlankAux_cons, sepMatch_nl_none h]

theorem splitBlankAux_sep_step {r : JStr}
    (h : ∀ c ∈ r.takeWhile wsChar, c ≠ '\n') (fuel : ℕ) (acc : JStr) :
    splitBlankAux (fuel + 1) acc ('\n' :: '\n' :: r) =
      acc.reverse :: splitBlankAux fuel [] r := by
  rw [splitBlankAux_cons, sepMatch_junction h]

/-- The tail that may follow a block during the scan: nothing, or a blank
line separator followed by text whose leading whitespace holds no further
newline. -/
theorem splitBlankAux_lines :
    ∀ ls : List JStr, (∀ l ∈ ls, '\n' ∉ l ∧ ∃ c ∈ l, wsChar c = false) → ls ≠ [] →
      ∀ tail : JStr,
        (tail = [] ∨ ∃ r, tail = '\n' :: '\n' :: r ∧
          ∀ c ∈ r.takeWhile wsChar, c ≠ '\n') →
      ∀ fuel acc,
        splitBlankAux ((joinSep ['\n'] ls).length + fuel) acc
            (joinSep ['\n'] ls ++ tail) =
          splitBlankAux fuel ((joinSep ['\n'] ls).reverseAux acc) tail := by
  intro ls
  induction ls with
  | nil => intro _ hne; exact absurd rfl hne
  | cons l ls ih =>
    intro hg _ tail htail fuel acc
    rcases ls with - | ⟨l2, ls'⟩
    · show splitBlankAux (l.length + fuel) acc (l ++ tail) = _
      exact splitBlankAux_scan l (hg l (List.mem_cons_self _ _)).1 fuel acc tail
    · have hJ : joinSep ['\n'] (l :: l2 :: ls') =
          l ++ '\n' :: joinSep ['\n'] (l2 :: ls') := by
        simp [joinSep]
      set J2 := joinSep ['\n'] (l2 :: ls') with hJ2
      have hJ2head : ∃ Y, J2 = l2 ++ Y := by
        rcases ls' with - | ⟨l3, ls''⟩
        · exact ⟨[], by simp [hJ2, joinSep]⟩
        · exact ⟨'\n' :: joinSep ['\n'] (l3 :: ls''), by simp [hJ2, joinSep]⟩
      obtain ⟨Y, hY⟩ := hJ2head
      have hl2 := hg l2 (List.mem_cons_of_mem _ (List.mem_cons_self _ _))
      have hnl2 : ∀ c ∈ (J2 ++ tail).takeWhile wsChar, c ≠ '\n' := by
        rw [hY, List.append_assoc]
        exact takeWhile_ws_no_nl hl2.1 hl2.2
      have hlen : (joinSep ['\n'] (l :: l2 :: ls')).length + fuel =
          l.length + ((J2.length + fuel) + 1) := by
        rw [hJ]
        simp
        omega
      rw [hlen, hJ, List.append_assoc, List.cons_append,
        splitBlankAux_scan l (hg l (List.mem_cons_self _ _)).1 _ acc _,
        splitBlankAux_nl_step hnl2,
        ih (fun x hx => hg x (List.mem_cons_of_mem _ hx)) (by simp) tail htail fuel
          ('\n' :: l.reverseAux acc)]
      congr 1
      simp [List.reverseAux_eq, List.reverse_append]

theorem splitBlankAux_blocks :
    ∀ bs : List JStr, (∀ b ∈ bs, GoodBlock b) → bs ≠ [] → ∀ fuel,
      splitBlankAux ((joinSep ['\n', '\n'] bs).length + (fuel + 1)) []
          (joinSep ['\n', '\n'] bs) = bs := by
  intro bs
  induction bs with
  | nil => intro _ hne; exact absurd rfl hne
  | cons b bs ih =>
    intro hg _ fuel
    have hb : GoodBlock b := hg b (List.mem_cons_self _ _)
    have hlines : ∀ l ∈ splitOnChar '\n' b, '\n' ∉ l ∧ ∃ c ∈ l, wsChar c = false :=
      fun l hl => ⟨not_mem_of_mem_splitOnChar hl, hb l hl⟩
    have hbj : joinSep ['\n'] (splitOnChar '\n' b) = b := joinSep_splitOnChar '\n' b
    rcases bs with - | ⟨b2, bs'⟩
    · have := splitBlankAux_lines (splitOnChar '\n' b) hlines
        (splitOnChar_ne_nil '\n' b) [] (Or.inl rfl) (fuel + 1) []
      rw [hbj, List.append_nil] at this
      show splitBlankAux (b.length + (fuel + 1)) [] b = [b]
      rw [this, splitBlankAux_nil]
      simp [List.reverseAux_eq]
    · set R := joinSep ['\n', '\n'] (b2 :: bs') with hR
      have hJ : joinSep ['\n', '\n'] (b :: b2 :: bs') = b ++ '\n' :: '\n' :: R := by
        simp [joinSep, hR]
      have hb2 : GoodBlock b2 := hg b2 (List.mem_cons_of_mem _ (List.mem_cons_self _ _))
      have hRb2 : ∃ Z, R = b2 ++ Z := by
        rcases bs' with - | ⟨b3, bs''⟩
        · exact ⟨[], by simp [hR, joinSep]⟩
        · exact ⟨'\n' :: '\n' :: joinSep ['\n', '\n'] (b3 :: bs''),
            by simp [hR, joinSep]⟩
      obtain ⟨Z, hZ⟩ := hRb2
      obtain ⟨l20, ls20, hsplit2⟩ := List.exists_cons_of_ne_nil (splitOnChar_ne_nil '\n' b2)
      have hb2j : joinSep ['\n'] (splitOnChar '\n' b2) = b2 := joinSep_splitOnChar '\n' b2
      have hb2head : ∃ W, b2 = l20 ++ W := by
        rcases ls20 with - | ⟨x, xs⟩
        · refine ⟨[], ?_⟩
          rw [← hb2j, hsplit2]
          simp [joinSep]
        · refine ⟨'\n' :: joinSep ['\n'] (x :: xs), ?_⟩
          rw [← hb2j, hsplit2]
          simp [joinSep]
      obtain ⟨W, hW⟩ := hb2head
      have hmem20 : l20 ∈ splitOnChar '\n' b2 := hsplit2 ▸ List.mem_cons_self _ _
      have hRnl : ∀ c ∈ R.takeWhile wsChar, c ≠ '\n' := by
        have hRW : R = l20 ++ (W ++ Z) := by rw [hZ, hW, List.append_assoc]
        rw [hRW]
        exact takeWhile_ws_no_nl (not_mem_of_mem_splitOnChar hmem20) (hb2 l20 hmem20)
      have hscan := splitBlankAux_lines (splitOnChar '\n' b) hlines
        (splitOnChar_ne_nil '\n' b) ('\n' :: '\n' :: R) (Or.inr ⟨R, rfl, hRnl⟩)
        ((R.length + ((fuel + 1) + 1)) + 1) []
      rw [hbj] at hscan
      have hlen : (joinSep ['\n', '\n'] (b :: b2 :: bs')).length + (fuel + 1) =
          b.length + ((R.length + ((fuel + 1) + 1)) + 1) := by
        rw [hJ]
        simp
        omega
      rw [hlen, hJ, hscan, splitBlankAux_sep_step hRnl,
        ih (fun x hx => hg x (List.mem_cons_of_mem _ hx)) (by simp) (fuel + 1)]
      simp [List.reverseAux_eq]

theorem splitBlank_joinSep {bs : List JStr} (hg : ∀ b ∈ bs, GoodBlock b)
    (hne : bs ≠ []) : splitBlank (joinSep ['\n', '\n'] bs) = bs := by
  unfold splitBlank
  simpa using splitBlankAux_blocks bs hg hne 0

/-! ## Serialised blocks -/

theorem secondsToSrtTime_chars {q : ℚ} (hq : 0 ≤ q) :
    ∀ c ∈ secondsToSrtTime q, c.isDigit = true ∨ c = ':' ∨ c = ',' := by
  obtain ⟨hh, mm, ss, ms, hstr, -, -, -, -, -⟩ := secondsToSrtTime_decomp hq
  rw [hstr]
  intro c hc
  simp only [List.append_assoc, List.mem_append, List.mem_singleton] at hc
  rcases hc with h | h | h | h | h | h | h
  · exact Or.inl (padStart_all_digit _ (natToChars_all_digit hh) c h)
  · exact Or.inr (Or.inl h)
  · exact Or.inl (padStart_all_digit _ (natToChars_all_digit mm) c h)
  · exact Or.inr (Or.inl h)
  · exact Or.inl (padStart_all_digit _ (natToChars_all_digit ss) c h)
  · exact Or.inr (Or.inr h)
  · exact Or.inl (padStart_all_digit _ (natToChars_all_digit ms) c h)

theorem secondsToSrtTime_no_char {q : ℚ} (hq : 0 ≤ q) {d : Char}
    (h1 : d.isDigit = false) (h2 : d ≠ ':') (h3 : d ≠ ',') :
    d ∉ secondsToSrtTime q := by
  intro hm
  rcases secondsToSrtTime_chars hq d hm with h | h | h
  · rw [h] at h1; exact absurd h1 (by decide)
  · exact h2 h
  · exact h3 h

theorem secondsToSrtTime_ne_nil {q : ℚ} (hq : 0 ≤ q) : secondsToSrtTime q ≠ [] := by
  obtain ⟨hh, mm, ss, ms, hstr, -, -, -, -, -⟩ := secondsToSrtTime_decomp hq
  rw [hstr]
  simp [padStart_ne_nil (natToChars_ne_nil hh)]

theorem natToChars_no_ws (n : ℕ) : ∀ c ∈ natToChars n, wsChar c = false :=
  fun c hc => wsChar_eq_false_of_isDigit (natToChars_all_digit n c hc)

theorem stringifyBlock_lines (e : SubtitleItem) (i : ℕ)
    (hs : 0 ≤ e.start) (he : 0 ≤ e.endSec) :
    splitOnChar '\n' (stringifyBlock e i) =
      natToChars (i + 1) ::
        (secondsToSrtTime e.start ++ arrowSep ++ secondsToSrtTime e.endSec) ::
        splitOnChar '\n' e.text := by
  have hid : '\n' ∉ natToChars (i + 1) :=
    not_mem_of_all_digit (natToChars_all_digit (i + 1)) (by decide)
  have hTL : '\n' ∉ secondsToSrtTime e.start ++ arrowSep ++ secondsToSrtTime e.endSec := by
    intro hm
    simp only [List.mem_append] at hm
    rcases hm with (hm | hm) | hm
    · exact secondsToSrtTime_no_char hs (by decide) (by decide) (by decide) hm
    · revert hm; decide
    · exact secondsToSrtTime_no_char he (by decide) (by decide) (by decide) hm
  have hshape : stringifyBlock e i =
      natToChars (i + 1) ++ '\n' ::
        ((secondsToSrtTime e.start ++ arrowSep ++ secondsToSrtTime e.endSec) ++
          '\n' :: e.text) := by
    unfold stringifyBlock
    simp [List.append_assoc]
  rw [hshape, splitOnChar_append _ hid, splitOnChar_append _ hTL]

theorem stringifyBlock_good (e : SubtitleItem) (i : ℕ)
    (hs : 0 ≤ e.start) (he : 0 ≤ e.endSec) (ht : GoodText e.text) :
    GoodBlock (stringifyBlock e i) := by
  intro l hl
  rw [stringifyBlock_lines e i hs he] at hl
  rcases List.mem_cons.1 hl with rfl | hl
  · obtain ⟨c, cs, hc⟩ := List.exists_cons_of_ne_nil (natToChars_ne_nil (i + 1))
    refine ⟨c, by rw [hc]; exact List.mem_cons_self _ _, ?_⟩
    exact wsChar_eq_false_of_isDigit
      (natToChars_all_digit (i + 1) c (by rw [hc]; exact List.mem_cons_self _ _))
  rcases List.mem_cons.1 hl with rfl | hl
  · exact ⟨'-', by simp [arrowSep], by decide⟩
  · exact ht.2.2.2 l hl

theorem parseIntJS_natToChars (n : ℕ) : parseIntJS (natToChars n) = some ((n : ℕ) : ℤ) := by
  rw [parseIntJS_digits (natToChars_ne_nil n) (natToChars_all_digit n),
    digitsVal_natToChars]

theorem secondsToSrtTime_no_space {q : ℚ} (hq : 0 ≤ q) :
    ∀ c ∈ secondsToSrtTime q, c ≠ ' ' := by
  intro c hc
  rcases secondsToSrtTime_chars hq c hc with h | h | h
  · exact ne_of_isDigit h (by decide)
  · rw [h]; decide
  · rw [h]; decide

theorem parseSRTBlock_stringifyBlock (e : SubtitleItem) (i : ℕ)
    (hs : 0 ≤ e.start) (he : 0 ≤ e.endSec) :
    parseSRTBlock (stringifyBlock e i) i = [rtEntry e i] := by
  have hlines := stringifyBlock_lines e i hs he
  set Tstart := secondsToSrtTime e.start with hTs
  set Tend := secondsToSrtTime e.endSec with hTe
  set TL : JStr := Tstart ++ arrowSep ++ Tend with hTLdef
  have hTLne : TL.isEmpty = false := by
    rw [Bool.eq_false_iff]
    intro h
    rw [List.isEmpty_iff] at h
    have := congrArg List.length h
    simp [hTLdef, arrowSep, List.length_append] at this
  have hTLarrow : containsSub arrowStr TL = true := by
    have hdecomp : TL = (Tstart ++ [' ']) ++ arrowStr ++ ([' '] ++ Tend) := by
      simp [hTLdef, arrowSep, arrowStr, List.append_assoc]
    exact containsSub_of_parts hdecomp
  have hsplitTL : splitOnStr arrowSep TL = [Tstart, Tend] := by
    rw [hTLdef]
    exact splitOnStr_two_pieces rfl
      (by rw [hTs]; exact secondsToSrtTime_no_space hs)
      (by rw [hTe]; exact secondsToSrtTime_no_space he)
  have hlen3 : 3 ≤ (natToChars (i + 1) :: TL :: splitOnChar '\n' e.text).length := by
    have := List.length_pos.2 (splitOnChar_ne_nil '\n' e.text)
    simp
    omega
  simp only [parseSRTBlock]
  rw [hlines, if_pos hlen3]
  simp only [List.getD_cons_zero, List.getD_cons_succ]
  rw [if_pos (by rw [hTLne, hTLarrow]; rfl)]
  rw [hsplitTL]
  simp only [List.getD_cons_zero, List.getD_cons_succ, List.drop_succ_cons,
    List.drop_zero]
  rw [hTs, hTe, srtTimeToSeconds_roundtrip hs, srtTimeToSeconds_roundtrip he,
    parseIntJS_natToChars (i + 1), joinSep_splitOnChar]
  have hne0 : ((i + 1 : ℕ) : ℤ) ≠ 0 := by exact_mod_cast Nat.succ_ne_zero i
  simp only [nanZero, Option.getD_some, rtEntry]
  rw [if_neg hne0]

theorem parseSRTBlocks_stringifyBlocks :
    ∀ subs : List SubtitleItem, (∀ e ∈ subs, 0 ≤ e.start ∧ 0 ≤ e.endSec) →
      ∀ acc : List SubtitleItem,
        parseSRTBlocks (stringifyBlocks subs acc.length) acc =
          acc ++ rtList subs acc.length := by
  intro subs
  induction subs with
  | nil => intro _ acc; simp [stringifyBlocks, parseSRTBlocks, rtList]
  | cons e es ih =>
    intro hg acc
    have hge := hg e (List.mem_cons_self _ _)
    show parseSRTBlocks
        (stringifyBlock e acc.length :: stringifyBlocks es (acc.length + 1)) acc = _
    unfold parseSRTBlocks
    rw [parseSRTBlock_stringifyBlock e acc.length hge.1 hge.2]
    have hlen : acc.length + 1 = (acc ++ [rtEntry e acc.length]).length := by simp
    rw [hlen, ih (fun x hx => hg x (List.mem_cons_of_mem _ hx))]
    rw [← hlen]
    rw [show rtList (e :: es) acc.length
          = rtEntry e acc.length :: rtList es (acc.length + 1) from rfl]
    simp [List.append_assoc]

theorem mem_joinSep {c : Char} {sep : JStr} :
    ∀ {ps : List JStr}, c ∈ joinSep sep ps → c ∈ sep ∨ ∃ p ∈ ps, c ∈ p := by
  intro ps
  induction ps with
  | nil => intro h; simp [joinSep] at h
  | cons p ps ih =>
    intro h
    rcases ps with - | ⟨q, qs⟩
    · exact Or.inr ⟨p, List.mem_cons_self _ _, h⟩
    · simp only [joinSep, List.append_assoc, List.mem_append] at h
      rcases h with h | h | h
      · exact Or.inr ⟨p, List.mem_cons_self _ _, h⟩
      · exact Or.inl h
      · rcases ih h with h | ⟨r, hr, hcr⟩
        · exact Or.inl h
        · exact Or.inr ⟨r, List.mem_cons_of_mem _ hr, hcr⟩

theorem mem_stringifyBlocks {b : JStr} :
    ∀ {subs : List SubtitleItem} {n : ℕ}, b ∈ stringifyBlocks subs n →
      ∃ e ∈ subs, ∃ i, b = stringifyBlock e i := by
  intro subs
  induction subs with
  | nil => intro n h; simp [stringifyBlocks] at h
  | cons e es ih =>
    intro n h
    rcases List.mem_cons.1 h with rfl | h
    · exact ⟨e, List.mem_cons_self _ _, n, rfl⟩
    · obtain ⟨f, hf, i, hi⟩ := ih h
      exact ⟨f, List.mem_cons_of_mem _ hf, i, hi⟩

theorem stringifyBlock_no_cr {e : SubtitleItem} {i : ℕ}
    (hs : 0 ≤ e.start) (he : 0 ≤ e.endSec) (hcr : '\r' ∉ e.text) :
    '\r' ∉ stringifyBlock e i := by
  intro hm
  unfold stringifyBlock at hm
  simp only [List.append_assoc, List.mem_append, List.mem_singleton] at hm
  rcases hm with h | h | h | h | h | h | h
  · exact not_mem_of_all_digit (natToChars_all_digit (i + 1)) (by decide) h
  · exact absurd h (by decide)
  · exact secondsToSrtTime_no_char hs (by decide) (by decide) (by decide) h
  · revert h; decide
  · exact secondsToSrtTime_no_char he (by decide) (by decide) (by decide) h
  · exact absurd h (by decide)
  · exact hcr h

theorem headD_append_of_ne_nil {a : JStr} (b : JStr) (h : a ≠ []) (d : Char) :
    (a ++ b).headD d = a.headD d := by
  cases a with
  | nil => exact absurd rfl h
  | cons c cs => rfl

theorem getLastD_append_of_ne_nil {b : JStr} (a : JStr) (h : b ≠ []) (d : Char) :
    (a ++ b).getLastD d = b.getLastD d := by
  rw [List.getLastD_eq_getLast?, List.getLastD_eq_getLast?,
    List.getLast?_append_of_ne_nil _ h]

theorem joinSep_ne_nil {sep : JStr} {p : JStr} (ps : List JStr) (h : p ≠ []) :
    joinSep sep (p :: ps) ≠ [] := by
  rcases ps with - | ⟨q, qs⟩
  · exact h
  · simp only [joinSep]
    intro hemp
    rcases List.append_eq_nil.1 hemp with ⟨h1, -⟩
    rcases List.append_eq_nil.1 h1 with ⟨h2, -⟩
    exact h h2

theorem stringifyBlock_ne_nil (e : SubtitleItem) (i : ℕ) :
    stringifyBlock e i ≠ [] := by
  unfold stringifyBlock
  intro h
  have := congrArg List.length h
  simp [List.length_append] at this

theorem wsChar_getLastD_joinSep {sep : JStr} :
    ∀ ps : List JStr, ps ≠ [] →
      (∀ p ∈ ps, p ≠ [] ∧ wsChar (p.getLastD 'x') = false) →
      wsChar ((joinSep sep ps).getLastD 'x') = false := by
  intro ps
  induction ps with
  | nil => intro h; exact absurd rfl h
  | cons p ps ih =>
    intro _ hg
    rcases ps with - | ⟨q, qs⟩
    · exact (hg p (List.mem_cons_self _ _)).2
    · have hq := hg q (List.mem_cons_of_mem _ (List.mem_cons_self _ _))
      have hJ : joinSep sep (q :: qs) ≠ [] := joinSep_ne_nil qs hq.1
      show wsChar ((p ++ sep ++ joinSep sep (q :: qs)).getLastD 'x') = false
      rw [List.append_assoc, getLastD_append_of_ne_nil p
        (fun hemp => hJ (List.append_eq_nil.1 hemp).2) 'x',
        getLastD_append_of_ne_nil sep hJ 'x']
      exact ih (by simp) fun r hr => hg r (List.mem_cons_of_mem _ hr)

theorem parseSRT_stringifySRT {subs : List SubtitleItem} (hne : subs ≠ [])
    (hg : ∀ e ∈ subs, 0 ≤ e.start ∧ 0 ≤ e.endSec ∧ GoodText e.text) :
    parseSRT (stringifySRT subs) = rtList subs 0 := by
  obtain ⟨e0, es, rfl⟩ := List.exists_cons_of_ne_nil hne
  have hg0 := hg e0 (List.mem_cons_self _ _)
  set S : JStr := stringifySRT (e0 :: es) with hS
  have hSj : S = joinSep ['\n', '\n'] (stringifyBlocks (e0 :: es) 0) := rfl
  have hmemblocks : ∀ b ∈ stringifyBlocks (e0 :: es) 0,
      ∃ e ∈ e0 :: es, ∃ i, b = stringifyBlock e i := fun b hb => mem_stringifyBlocks hb
  have hnocr : '\r' ∉ S := by
    intro hm
    rw [hSj] at hm
    rcases mem_joinSep hm with h | ⟨b, hb, hcb⟩
    · revert h; decide
    · obtain ⟨e, he, i, rfl⟩ := hmemblocks b hb
      exact stringifyBlock_no_cr (hg e he).1 (hg e he).2.1 (hg e he).2.2.2.1 hcb
  have hSblocks0 : stringifyBlocks (e0 :: es) 0 =
      stringifyBlock e0 0 :: stringifyBlocks es 1 := rfl
  have hhead : wsChar (S.headD 'x') = false := by
    have h1 : S.headD 'x' = (stringifyBlock e0 0).headD 'x' := by
      rw [hSj, hSblocks0]
      rcases hstep : stringifyBlocks es 1 with - | ⟨b2, bs2⟩
      · rfl
      · show ((stringifyBlock e0 0 ++ ['\n', '\n'] ++ _).headD 'x') = _
        rw [List.append_assoc,
          headD_append_of_ne_nil _ (stringifyBlock_ne_nil e0 0) 'x']
    rw [h1]
    show wsChar ((natToChars 1 ++ _).headD 'x') = false
    rw [headD_append_of_ne_nil _ (natToChars_ne_nil 1) 'x']
    obtain ⟨c, cs, hc⟩ := List.exists_cons_of_ne_nil (natToChars_ne_nil 1)
    rw [hc, List.headD_cons]
    exact wsChar_eq_false_of_isDigit
      (natToChars_all_digit 1 c (by rw [hc]; exact List.mem_cons_self _ _))
  have hlastblock : ∀ e : SubtitleItem, GoodText e.text → ∀ i : ℕ,
      wsChar ((stringifyBlock e i).getLastD 'x') = false := by
    intro e het i
    show wsChar ((_ ++ e.text).getLastD 'x') = false
    rw [getLastD_append_of_ne_nil _ het.1 'x']
    exact het.2.2.1
  have hlast : wsChar (S.getLastD 'x') = false := by
    rw [hSj]
    refine wsChar_getLastD_joinSep _ (by rw [hSblocks0]; simp) ?_
    intro b hb
    obtain ⟨e, he, i, rfl⟩ := hmemblocks b hb
    exact ⟨stringifyBlock_ne_nil e i, hlastblock e (hg e he).2.2 i⟩
  have hgoodblocks : ∀ b ∈ stringifyBlocks (e0 :: es) 0, GoodBlock b := by
    intro b hb
    obtain ⟨e, he, i, rfl⟩ := hmemblocks b hb
    exact stringifyBlock_good e i (hg e he).1 (hg e he).2.1 (hg e he).2.2
  unfold parseSRT
  rw [normalizeCRLF_eq_self hnocr, trimJS_eq_self hhead hlast, hSj,
    splitBlank_joinSep hgoodblocks (by rw [hSblocks0]; simp)]
  have := parseSRTBlocks_stringifyBlocks (e0 :: es)
    (fun x hx => ⟨(hg x hx).1, (hg x hx).2.1⟩) []
  simpa using this

/-! ## The round-tripped timeline, positionally -/

theorem rtList_length : ∀ (subs : List SubtitleItem) (i : ℕ),
    (rtList subs i).length = subs.length
  | [], _ => rfl
  | _ :: es, i => by simp [rtList, rtList_length es (i + 1)]

theorem rtList_getD : ∀ (subs : List SubtitleItem) (i j : ℕ), j < subs.length →
    (rtList subs i).getD j defaultItem = rtEntry (subs.getD j defaultItem) (i + j)
  | [], _, j, hj => by simp at hj
  | e :: es, i, 0, _ => by simp [rtList]
  | e :: es, i, j + 1, hj => by
    have := rtList_getD es (i + 1) j (by simpa using hj)
    simp only [rtList, List.getD_cons_succ, this]
    ring_nf

theorem MsTime.nonneg {q : ℚ} (h : MsTime q) : 0 ≤ q := by
  obtain ⟨k, rfl⟩ := h
  positivity

/-! ## Digit-string lengths and padding widths -/

theorem padStart_length (s : JStr) (n : ℕ) (c : Char) :
    (padStart s n c).length = max n s.length := by
  simp [padStart]
  omega

theorem natToCharsAux_length_le :
    ∀ fuel n k, n < 10 ^ (fuel + 1) → n < 10 ^ (k + 1) →
      (natToCharsAux (fuel + 1) n).length ≤ k + 1
  | fuel, n, k, hf, hk => by
    unfold natToCharsAux
    split
    · simp
    · rename_i h10
      push_neg at h10
      match fuel, hf with
      | 0, hf => exact absurd (by omega : n < 10) (by omega)
      | f + 1, hf =>
        have hdiv : n / 10 < 10 ^ (f + 1) := by
          rw [Nat.div_lt_iff_lt_mul (by norm_num)]
          calc n < 10 ^ (f + 1 + 1) := hf
          _ = 10 ^ (f + 1) * 10 := by ring
        have hk1 : 1 ≤ k := by
          by_contra hlt
          interval_cases k
          omega
        obtain ⟨k1, rfl⟩ := Nat.exists_eq_add_of_le hk1
        have hdivk : n / 10 < 10 ^ (k1 + 1) := by
          rw [Nat.div_lt_iff_lt_mul (by norm_num)]
          calc n < 10 ^ (1 + k1 + 1) := hk
          _ = 10 ^ (k1 + 1) * 10 := by ring
        have := natToCharsAux_length_le f (n / 10) k1 hdiv hdivk
        simp only [List.length_append, List.length_cons, List.length_nil]
        omega

theorem natToChars_length_le {n k : ℕ} (h : n < 10 ^ (k + 1)) :
    (natToChars n).length ≤ k + 1 :=
  natToCharsAux_length_le n n k (lt_ten_pow_succ n) h

/-! ## Trim on whitespace-free strings -/

theorem getLastD_mem {l : JStr} (h : l ≠ []) (d : Char) : l.getLastD d ∈ l := by
  rw [List.getLastD_eq_getLast?, List.getLast?_eq_getLast l h]
  exact List.getLast_mem h

theorem trimJS_of_no_ws {s : JStr} (h : ∀ c ∈ s, wsChar c = false) :
    trimJS s = s := by
  rcases hs : s with - | ⟨c, cs⟩
  · rfl
  · refine trimJS_eq_self ?_ ?_
    · rw [List.headD_cons]
      exact h c (by rw [hs]; exact List.mem_cons_self _ _)
    · exact h _ (by rw [hs]; exact getLastD_mem (by simp) 'x')

theorem timeChar_not_ws {c : Char} (h : timeChar c = true) : wsChar c = false := by
  simp only [timeChar, Bool.or_eq_true, decide_eq_true_eq] at h
  rcases h with ((hd | hd) | hd) | hd
  · exact wsChar_eq_false_of_isDigit hd
  · rw [hd]; decide
  · rw [hd]; decide
  · rw [hd]; decide

theorem filter_timeChar_invariant (t : JStr) :
    (trimJS ((trimJS t).filter timeChar)).filter timeChar =
      (trimJS t).filter timeChar := by
  rw [trimJS_of_no_ws fun c hc => timeChar_not_ws (List.of_mem_filter hc)]
  rw [List.filter_filter]
  simp

/-! ## The ripple shift, positionally -/

theorem shiftEntry_eq_max (d : ℚ) (s : SubtitleItem) :
    shiftEntry d s = { s with start := max 0 (s.start + d),
                              endSec := max 0 (s.endSec + d) } := by
  have h1 : (if s.start + d < 0 then (0 : ℚ) else s.start + d) = max 0 (s.start + d) := by
    rcases le_or_lt 0 (s.start + d) with h | h
    · rw [if_neg (not_lt.2 h), max_eq_right h]
    · rw [if_pos h, max_eq_left h.le]
  have h2 : (if s.endSec + d < 0 then (0 : ℚ) else s.endSec + d) = max 0 (s.endSec + d) := by
    rcases le_or_lt 0 (s.endSec + d) with h | h
    · rw [if_neg (not_lt.2 h), max_eq_right h]
    · rw [if_pos h, max_eq_left h.le]
  show ({ id := s.id, start := if s.start + d < 0 then 0 else s.start + d,
          endSec := if s.endSec + d < 0 then 0 else s.endSec + d,
          text := s.text } : SubtitleItem) = _
  rw [h1, h2]

theorem shiftEntry_nonneg (d : ℚ) (s : SubtitleItem) :
    0 ≤ (shiftEntry d s).start ∧ 0 ≤ (shiftEntry d s).endSec := by
  rw [shiftEntry_eq_max]
  exact ⟨le_max_left 0 _, le_max_left 0 _⟩

theorem shiftFrom_length (d : ℚ) :
    ∀ (i : ℕ) (l : List SubtitleItem), (shiftFrom d i l).length = l.length
  | 0, [] => rfl
  | _ + 1, [] => rfl
  | 0, s :: rest => by simp [shiftFrom, shiftFrom_length d 0 rest]
  | i + 1, s :: rest => by simp [shiftFrom, shiftFrom_length d i rest]

theorem shiftFrom_getD_lt (d : ℚ) :
    ∀ (i : ℕ) (l : List SubtitleItem) (j : ℕ), j < i →
      (shiftFrom d i l).getD j defaultItem = l.getD j defaultItem
  | 0, [], _, _ => rfl
  | _ + 1, [], _, _ => rfl
  | 0, s :: rest, j, hj => by omega
  | i + 1, s :: rest, 0, _ => rfl
  | i + 1, s :: rest, j + 1, hj => by
    simp only [shiftFrom, List.getD_cons_succ]
    exact shiftFrom_getD_lt d i rest j (by omega)

theorem shiftFrom_getD_ge (d : ℚ) :
    ∀ (i : ℕ) (l : List SubtitleItem) (j : ℕ), i ≤ j → j < l.length →
      (shiftFrom d i l).getD j defaultItem = shiftEntry d (l.getD j defaultItem)
  | 0, [], j, _, hj => by simp at hj
  | _ + 1, [], j, _, hj => by simp at hj
  | 0, s :: rest, 0, _, _ => rfl
  | 0, s :: rest, j + 1, _, hj => by
    simp only [shiftFrom, List.getD_cons_succ]
    exact shiftFrom_getD_ge d 0 rest j (by omega) (by simpa using hj)
  | i + 1, s :: rest, 0, hi, _ => by omega
  | i + 1, s :: rest, j + 1, hi, hj => by
    simp only [shiftFrom, List.getD_cons_succ]
    exact shiftFrom_getD_ge d i rest j (by omega) (by simpa using hj)

theorem mem_shiftFrom {d : ℚ} {e : SubtitleItem} :
    ∀ {i : ℕ} {l : List SubtitleItem}, e ∈ shiftFrom d i l →
      e ∈ l ∨ ∃ s ∈ l, e = shiftEntry d s := by
  intro i l
  induction l generalizing i with
  | nil => intro h; simp [shiftFrom] at h
  | cons s rest ih =>
    intro h
    rcases i with - | i
    · rcases List.mem_cons.1 h with rfl | h
      · exact Or.inr ⟨s, List.mem_cons_self _ _, rfl⟩
      · rcases ih h with h | ⟨r, hr, hre⟩
        · exact Or.inl (List.mem_cons_of_mem _ h)
        · exact Or.inr ⟨r, List.mem_cons_of_mem _ hr, hre⟩
    · rcases List.mem_cons.1 h with rfl | h
      · exact Or.inl (List.mem_cons_self _ _)
      · rcases ih h with h | ⟨r, hr, hre⟩
        · exact Or.inl (List.mem_cons_of_mem _ h)
        · exact Or.inr ⟨r, List.mem_cons_of_mem _ hr, hre⟩

/-! ## Blocks without a timing line -/

theorem hasArrowLine_mem {b l : JStr} (h : hasArrowLine b = false)
    (hl : l ∈ splitOnChar '\n' b) : containsSub arrowStr l = false := by
  simp only [hasArrowLine, List.any_eq_false] at h
  simpa using h l hl

theorem parseSRTBlock_no_arrow {b : JStr} (count : ℕ)
    (h : hasArrowLine b = false) : parseSRTBlock b count = [] := by
  by_cases h3 : 3 ≤ (splitOnChar '\n' b).length
  · have hmem : (splitOnChar '\n' b).getD 1 [] ∈ splitOnChar '\n' b := by
      rw [List.getD_eq_getElem _ _ (by omega)]
      exact List.getElem_mem _
    have harrow := hasArrowLine_mem h hmem
    have hng : ¬((!((splitOnChar '\n' b).getD 1 []).isEmpty &&
        containsSub arrowStr ((splitOnChar '\n' b).getD 1 [])) = true) := by
      rw [harrow]
      simp
    simp only [parseSRTBlock]
    rw [if_pos h3, if_neg hng]
  · simp only [parseSRTBlock]
    rw [if_neg h3]

/-! ## The synchronization engine -/

theorem handleSyncVideo_ok (subs : List Subtitle) {cur tgt : ℚ}
    (hc : cur ≠ 0) (ht : tgt ≠ 0) :
    handleSyncVideo subs cur tgt = .ok (subs.map (scaleSub (tgt / cur))) := by
  unfold handleSyncVideo
  rw [if_neg (fun h => h.elim ht hc)]
  rfl

theorem handleSyncVideo_err_iff (subs : List Subtitle) (cur tgt : ℚ) :
    handleSyncVideo subs cur tgt = .error .invalidDuration ↔ cur = 0 ∨ tgt = 0 := by
  by_cases h : tgt = 0 ∨ cur = 0
  · constructor
    · intro _
      tauto
    · intro _
      unfold handleSyncVideo
      rw [if_pos h]
  · push_neg at h
    rw [handleSyncVideo_ok subs h.2 h.1]
    constructor
    · intro hcontra
      exact Except.noConfusion hcontra
    · intro hor
      rcases hor with h0 | h0
      · exact absurd h0 h.2
      · exact absurd h0 h.1

/-! ## Every App.tsx parse result has text -/

theorem appFlush_text {st : ParseState} (h : ∀ e ∈ st.subs, e.text ≠ []) :
    ∀ e ∈ appFlush st, e.text ≠ [] := by
  intro e he
  simp only [appFlush] at he
  split at he
  · split at he
    · rename_i hg
      rcases List.mem_append.1 he with hm | hm
      · exact h e hm
      · rcases List.mem_singleton.1 hm with rfl
        show cleanupText st.currentText ≠ []
        intro hnil
        rw [hnil] at hg
        exact absurd hg (by decide)
    · exact h e he
  · exact h e he

theorem appStep_text {st : ParseState} (h : ∀ e ∈ st.subs, e.text ≠ [])
    (line : JStr) : ∀ e ∈ (appStep st line).subs, e.text ≠ [] := by
  intro e he
  simp only [appStep] at he
  split at he
  · exact h e he
  · split at he
    · exact appFlush_text h e he
    · split at he
      · exact h e he
      · split at he
        · exact h e he
        · exact h e he

theorem foldl_appStep_text (lines : List JStr) :
    ∀ st : ParseState, (∀ e ∈ st.subs, e.text ≠ []) →
      ∀ e ∈ (lines.foldl appStep st).subs, e.text ≠ [] := by
  induction lines with
  | nil => intro st h; exact h
  | cons l ls ih => intro st h; exact ih _ (appStep_text h l)

theorem parseSRTApp_text (srt : JStr) : ∀ e ∈ parseSRTApp srt, e.text ≠ [] := by
  intro e he
  simp only [parseSRTApp] at he
  exact appFlush_text (foldl_appStep_text _ _ (by simp)) e he

/-! ## The App.tsx timecode codec -/

theorem parseTime_strip (t : JStr) :
    parseTime ((trimJS t).filter timeChar) = parseTime t := by
  simp only [parseTime]
  rw [filter_timeChar_invariant]

theorem parseTime_invalid (t : JStr)
    (h2 : (splitOnChar ':' (replaceFirst ',' '.' ((trimJS t).filter timeChar))).length ≠ 2)
    (h3 : (splitOnChar ':' (replaceFirst ',' '.' ((trimJS t).filter timeChar))).length ≠ 3) :
    parseTime t = 0 := by
  simp only [parseTime]
  rcases hp : splitOnChar ':' (replaceFirst ',' '.' ((trimJS t).filter timeChar)) with
    - | ⟨a, - | ⟨b, - | ⟨c, - | ⟨d, rest⟩⟩⟩⟩
  · rfl
  · rfl
  · rw [hp] at h2
    simp at h2
  · rw [hp] at h3
    simp at h3
  · rfl

/-! ## The active-subtitle lookup -/

theorem activeSubtitle_eq_some_iff (subs : List SubtitleItem) (t : ℚ)
    (e : SubtitleItem) :
    activeSubtitle subs t = some e ↔
      ∃ i, i < subs.length ∧ e = subs.getD i defaultItem ∧
        (subs.getD i defaultItem).start ≤ t ∧ t ≤ (subs.getD i defaultItem).endSec ∧
        ∀ j, j < i →
          ¬((subs.getD j defaultItem).start ≤ t ∧
            t ≤ (subs.getD j defaultItem).endSec) := by
  unfold activeSubtitle
  rw [List.find?_eq_some_iff_getElem]
  constructor
  · rintro ⟨hpe, i, hi, hei, hmin⟩
    simp only [Bool.and_eq_true, decide_eq_true_eq] at hpe
    refine ⟨i, hi, ?_, ?_, ?_, ?_⟩
    · rw [List.getD_eq_getElem _ _ hi, hei]
    · rw [List.getD_eq_getElem _ _ hi, hei]
      exact hpe.1
    · rw [List.getD_eq_getElem _ _ hi, hei]
      exact hpe.2
    · intro j hj
      rw [List.getD_eq_getElem _ _ (hj.trans hi)]
      intro hab
      have h2 := hmin j hj
      simp [hab.1, hab.2] at h2
  · rintro ⟨i, hi, rfl, hs, he, hmin⟩
    refine ⟨by simp only [Bool.and_eq_true, decide_eq_true_eq]; exact ⟨hs, he⟩,
      i, hi, ?_, ?_⟩
    · rw [List.getD_eq_getElem _ _ hi]
    · intro j hj
      have hmj := hmin j hj
      rw [List.getD_eq_getElem _ _ (hj.trans hi)] at hmj
      by_cases hs1 : (subs.get ⟨j, hj.trans hi⟩).start ≤ t
      · have hs2 : ¬ t ≤ (subs.get ⟨j, hj.trans hi⟩).endSec := by
          intro hb
          exact hmj ⟨by simpa using hs1, by simpa using hb⟩
        simp only [List.get_eq_getElem] at hs1 hs2
        simp [hs1, hs2]
      · simp only [List.get_eq_getElem] at hs1
        simp [hs1]

theorem activeSubtitle_eq_none (subs : List SubtitleItem) (t : ℚ)
    (h : ∀ e ∈ subs, ¬(e.start ≤ t ∧ t ≤ e.endSec)) :
    activeSubtitle subs t = none := by
  unfold activeSubtitle
  rw [List.find?_eq_none]
  intro x hx
  simpa using h x hx

/-! ## The claims -/

/-- C1 (amended): `handleSyncVideo` multiplies every entry's `startTime` and
`endTime` by `ratio = targetDuration / currentDuration` and changes nothing
else — but only when BOTH durations are nonzero; a zero `targetDuration`
makes the falsy guard throw even with `currentDuration > 0`, so the
amendment strengthens the claim's `currentDuration > 0` to
`currentDuration ≠ 0 ∧ targetDuration ≠ 0`. -/
theorem sync_scales_by_ratio (subs : List Subtitle) (cur tgt : ℚ)
    (hc : cur ≠ 0) (ht : tgt ≠ 0) :
    handleSyncVideo subs cur tgt = .ok (subs.map (scaleSub (tgt / cur))) :=
  handleSyncVideo_ok subs hc ht

/-- C1, witness: scenario C — `currentDuration = 10`, `targetDuration = 15`
turn the entry with `start = 2`, `end = 4` into `start = 3`, `end = 6`. -/
theorem sync_scales_by_ratio_witness :
    handleSyncVideo [⟨0, 2, 4, [], 50⟩] 10 15 =
      Except.ok [⟨0, 3, 6, [], 50⟩] := by
  rw [sync_scales_by_ratio [⟨0, 2, 4, [], 50⟩] 10 15 (by norm_num) (by norm_num)]
  norm_num [scaleSub]

/-- C1, counterexample to the original claim: with `currentDuration = 10 > 0`
and `targetDuration = 0` the code does not scale by `ratio = 0/10` — the
falsy guard on `aiAudioDuration` throws instead. -/
theorem sync_targetZero_counterexample :
    handleSyncVideo [⟨0, 2, 4, [], 50⟩] 10 0 ≠
      Except.ok (List.map (scaleSub (0 / 10)) [⟨0, 2, 4, [], 50⟩]) := by
  unfold handleSyncVideo
  rw [if_pos (Or.inl rfl)]
  exact fun h => Except.noConfusion h

/-- C2: `handleSubtitleShift` with a `NaN` `newStart` (modelled `none`) is a
no-op; with a numeric `newStart` and an in-range index it leaves every entry
below the index unchanged and adds `delta = newStart - entries[index].start`
to both `start` and `end` of every entry from the index on, provided no
clamping triggers (both shifted values stay nonnegative). -/
theorem ripple_shift_delta (subs : List SubtitleItem) (i : ℕ) (ns : ℚ) :
    handleSubtitleShift subs i none = subs ∧
    (i < subs.length →
      (handleSubtitleShift subs i (some ns)).length = subs.length ∧
      (∀ j, j < i →
        (handleSubtitleShift subs i (some ns)).getD j defaultItem =
          subs.getD j defaultItem) ∧
      (∀ j, i ≤ j → j < subs.length →
        0 ≤ (subs.getD j defaultItem).start +
          (ns - (subs.getD i defaultItem).start) →
        0 ≤ (subs.getD j defaultItem).endSec +
          (ns - (subs.getD i defaultItem).start) →
        (handleSubtitleShift subs i (some ns)).getD j defaultItem =
          { subs.getD j defaultItem with
              start := (subs.getD j defaultItem).start +
                (ns - (subs.getD i defaultItem).start),
              endSec := (subs.getD j defaultItem).endSec +
                (ns - (subs.getD i defaultItem).start) })) := by
  refine ⟨rfl, ?_⟩
  intro hi
  have hsome : handleSubtitleShift subs i (some ns) =
      shiftFrom (ns - (subs.getD i defaultItem).start) i subs := by
    simp only [handleSubtitleShift]
    rw [dif_pos hi, List.getD_eq_getElem _ _ hi]
  rw [hsome]
  refine ⟨shiftFrom_length _ _ _, fun j hj => shiftFrom_getD_lt _ _ _ _ hj, ?_⟩
  intro j hij hj hst hen
  rw [shiftFrom_getD_ge _ _ _ _ hij hj, shiftEntry_eq_max,
    max_eq_right hst, max_eq_right hen]

/-- C3 (amended): serializing and re-parsing a nonempty timeline recovers
every entry's `start`, `end` and `text` positionally — provided every time
is a nonnegative whole number of milliseconds (the codec stores only
millisecond precision, with rounding) and every text is interchange-clean
(nonempty, no `CR`, not ending in whitespace, no blank-line run).  The
original claim's hypotheses (`start < end`, no blank lines) do not suffice:
sub-millisecond fractions are destroyed, see the counterexample. -/
theorem roundtrip_preserves_fields (subs : List SubtitleItem)
    (hne : subs ≠ [])
    (hg : ∀ e ∈ subs, MsTime e.start ∧ MsTime e.endSec ∧ GoodText e.text) :
    (parseSRT (stringifySRT subs)).length = subs.length ∧
    ∀ j, j < subs.length →
      ((parseSRT (stringifySRT subs)).getD j defaultItem).start =
        (subs.getD j defaultItem).start ∧
      ((parseSRT (stringifySRT subs)).getD j defaultItem).endSec =
        (subs.getD j defaultItem).endSec ∧
      ((parseSRT (stringifySRT subs)).getD j defaultItem).text =
        (subs.getD j defaultItem).text := by
  have hg' : ∀ e ∈ subs, 0 ≤ e.start ∧ 0 ≤ e.endSec ∧ GoodText e.text :=
    fun e he => ⟨(hg e he).1.nonneg, (hg e he).2.1.nonneg, (hg e he).2.2⟩
  rw [parseSRT_stringifySRT hne hg']
  refine ⟨rtList_length subs 0, ?_⟩
  intro j hj
  rw [rtList_getD subs 0 j hj]
  have hmem : subs.getD j defaultItem ∈ subs := by
    rw [List.getD_eq_getElem _ _ hj]
    exact List.getElem_mem _
  exact ⟨msRound_eq_self (hg _ hmem).1, msRound_eq_self (hg _ hmem).2.1, rfl⟩

theorem goodText_Hi : GoodText ['H', 'i'] := by
  unfold GoodText
  refine ⟨by decide, by decide, by decide, by decide⟩

/-- C3, witness: a whole-millisecond entry (`start = 1/1000`, `end = 1`,
text `Hi`) keeps its `start` across the round trip. -/
theorem roundtrip_preserves_fields_witness :
    ((parseSRT (stringifySRT [⟨1, 1/1000, 1, ['H', 'i']⟩])).getD 0
        defaultItem).start =
      ((([⟨1, 1/1000, 1, ['H', 'i']⟩] : List SubtitleItem)).getD 0
        defaultItem).start := by
  refine ((roundtrip_preserves_fields [⟨1, 1/1000, 1, ['H', 'i']⟩]
    (by simp) ?_).2 0 (by simp)).1
  intro e he
  rcases List.mem_singleton.1 he with rfl
  exact ⟨⟨1, by norm_num⟩, ⟨1000, by norm_num⟩, goodText_Hi⟩

/-- C3, counterexample to the original claim: the entry with
`start = 1/10000 < end = 1` and clean text `Hi` satisfies the claim's
hypotheses, yet its `start` comes back as `0`, not `1/10000` — the codec
rounds to whole milliseconds. -/
theorem roundtrip_submillisecond_counterexample :
    (1 : ℚ)/10000 < 1 ∧ GoodText ['H', 'i'] ∧
    ((parseSRT (stringifySRT [⟨1, 1/10000, 1, ['H', 'i']⟩])).getD 0
        defaultItem).start ≠
      ((([⟨1, 1/10000, 1, ['H', 'i']⟩] : List SubtitleItem)).getD 0
        defaultItem).start := by
  have hg : ∀ e ∈ ([⟨1, 1/10000, 1, ['H', 'i']⟩] : List SubtitleItem),
      0 ≤ e.start ∧ 0 ≤ e.endSec ∧ GoodText e.text := by
    intro e he
    rcases List.mem_singleton.1 he with rfl
    exact ⟨by norm_num, by norm_num, goodText_Hi⟩
  refine ⟨by norm_num, goodText_Hi, ?_⟩
  rw [parseSRT_stringifySRT (by simp) hg, rtList_getD _ 0 0 (by simp)]
  show msRound ((1 : ℚ)/10000) ≠ (1 : ℚ)/10000
  have hz : msRound ((1 : ℚ)/10000) = 0 := by
    unfold msRound
    rw [show ⌊(1 : ℚ)/10000⌋ = 0 by norm_num [Int.floor_eq_iff]]
    rw [show ((1 : ℚ)/10000 - ((0 : ℤ) : ℚ)) * 1000 = 1/10 by norm_num]
    rw [show round ((1 : ℚ)/10) = 0 by rw [round_eq]; norm_num [Int.floor_eq_iff]]
    norm_num
  rw [hz]
  norm_num

/-- C4 (amended): `handleSyncVideo` fails with the invalid-duration error
exactly when a duration is `0` (JS falsiness), not when
`currentDuration ≤ 0`: negative durations pass the guard and scale the
timeline.  Scenario E (`currentDuration = 0`) does fail; the model is pure,
so an error trivially leaves the timeline untouched. -/
theorem sync_error_iff_zero (subs : List Subtitle) (cur tgt : ℚ) :
    (handleSyncVideo subs cur tgt = .error .invalidDuration ↔
      cur = 0 ∨ tgt = 0) ∧
    handleSyncVideo subs 0 tgt = .error .invalidDuration :=
  ⟨handleSyncVideo_err_iff subs cur tgt,
    (handleSyncVideo_err_iff subs 0 tgt).2 (Or.inl rfl)⟩

/-- C4, counterexample to the original claim: `currentDuration = -10 ≤ 0`
does not fail — the code only guards against falsy (zero) durations. -/
theorem sync_negative_duration_counterexample :
    (-10 : ℚ) ≤ 0 ∧
    handleSyncVideo [⟨0, 2, 4, [], 50⟩] (-10) 15 ≠
      Except.error .invalidDuration := by
  refine ⟨by norm_num, ?_⟩
  rw [handleSyncVideo_ok _ (by norm_num) (by norm_num)]
  exact fun h => Except.noConfusion h

/-- C5: for nonnegative seconds, `secondsToSrtTime` emits the four-field
comma-separated `HH:MM:SS,mmm` shape: hours, minutes and seconds zero-padded
to at least two digits (minutes and seconds exactly two, as they are below
60), milliseconds to at least three, with the millisecond field obtained by
rounding (`Math.round`), not truncation. -/
theorem timecode_format {q : ℚ} (hq : 0 ≤ q) :
    ∃ hh mm ss ms : ℕ,
      secondsToSrtTime q =
        padStart (natToChars hh) 2 '0' ++ [':'] ++
        padStart (natToChars mm) 2 '0' ++ [':'] ++
        padStart (natToChars ss) 2 '0' ++ [','] ++
        padStart (natToChars ms) 3 '0' ∧
      mm < 60 ∧ ss < 60 ∧
      ((hh * 3600 + mm * 60 + ss : ℕ) : ℤ) = ⌊q⌋ ∧
      ((ms : ℤ) = round ((q - (⌊q⌋ : ℚ)) * 1000)) ∧
      2 ≤ (padStart (natToChars hh) 2 '0').length ∧
      (padStart (natToChars mm) 2 '0').length = 2 ∧
      (padStart (natToChars ss) 2 '0').length = 2 ∧
      3 ≤ (padStart (natToChars ms) 3 '0').length := by
  obtain ⟨hh, mm, ss, ms, heq, hmm, hss, hsum, hhfl, hms⟩ :=
    secondsToSrtTime_decomp hq
  refine ⟨hh, mm, ss, ms, heq, hmm, hss, hsum, hms, ?_, ?_, ?_, ?_⟩
  · rw [padStart_length]
    omega
  · rw [padStart_length]
    have h2 : (natToChars mm).length ≤ 2 := @natToChars_length_le mm 1 (by omega)
    have h1 : 1 ≤ (natToChars mm).length :=
      List.length_pos.2 (natToChars_ne_nil mm)
    omega
  · rw [padStart_length]
    have h2 : (natToChars ss).length ≤ 2 := @natToChars_length_le ss 1 (by omega)
    have h1 : 1 ≤ (natToChars ss).length :=
      List.length_pos.2 (natToChars_ne_nil ss)
    omega
  · rw [padStart_length]
    omega

/-- C5, witness: the format theorem applied at `q = 7321/2` seconds. -/
theorem timecode_format_witness :
    (0 : ℚ) ≤ 7321/2 ∧
    ∃ hh mm ss ms : ℕ,
      secondsToSrtTime (7321/2) =
        padStart (natToChars hh) 2 '0' ++ [':'] ++
        padStart (natToChars mm) 2 '0' ++ [':'] ++
        padStart (natToChars ss) 2 '0' ++ [','] ++
        padStart (natToChars ms) 3 '0' ∧
      mm < 60 ∧ ss < 60 ∧
      ((hh * 3600 + mm * 60 + ss : ℕ) : ℤ) = ⌊(7321 : ℚ)/2⌋ ∧
      ((ms : ℤ) = round (((7321 : ℚ)/2 - (⌊(7321 : ℚ)/2⌋ : ℚ)) * 1000)) ∧
      2 ≤ (padStart (natToChars hh) 2 '0').length ∧
      (padStart (natToChars mm) 2 '0').length = 2 ∧
      (padStart (natToChars ss) 2 '0').length = 2 ∧
      3 ≤ (padStart (natToChars ms) 3 '0').length :=
  ⟨by norm_num, timecode_format (by norm_num)⟩

/-- C6: `parseTime` depends only on its input stripped to `[0-9:.,]`
(leading/trailing whitespace trimmed first, as the code trims before
stripping), and a structurally invalid remainder — neither two nor three
`:`-separated fields — yields `0` rather than an error or a `NaN`. -/
theorem parseTime_strips_and_defaults (t : JStr) :
    parseTime t = parseTime ((trimJS t).filter timeChar) ∧
    ((splitOnChar ':' (replaceFirst ',' '.'
        ((trimJS t).filter timeChar))).length ≠ 2 →
     (splitOnChar ':' (replaceFirst ',' '.'
        ((trimJS t).filter timeChar))).length ≠ 3 →
     parseTime t = 0) :=
  ⟨(parseTime_strip t).symm, parseTime_invalid t⟩

/-- C7: a block with no `-->` line contributes no entry — `parseSRTBlock`
returns nothing on it and the block accumulator passes it by unchanged —
and scenario D's block `3⟍n notatime⟍n Stray` is absent from both parsers'
output entirely. -/
theorem block_without_timing_dropped (b : JStr) (count : ℕ)
    (h : hasArrowLine b = false) :
    parseSRTBlock b count = [] ∧
    (∀ bs acc, parseSRTBlocks (b :: bs) acc = parseSRTBlocks bs acc) ∧
    parseSRT ['3', '\n', 'n', 'o', 't', 'a', 't', 'i', 'm', 'e', '\n',
      'S', 't', 'r', 'a', 'y'] = [] ∧
    parseSRTApp ['3', '\n', 'n', 'o', 't', 'a', 't', 'i', 'm', 'e', '\n',
      'S', 't', 'r', 'a', 'y'] = [] := by
  refine ⟨parseSRTBlock_no_arrow count h, ?_, ?_, ?_⟩
  · intro bs acc
    show parseSRTBlocks bs (acc ++ parseSRTBlock b acc.length) =
      parseSRTBlocks bs acc
    rw [parseSRTBlock_no_arrow _ h, List.append_nil]
  · rfl
  · rfl

/-- C7, witness: scenario D's block has no `-->` line and yields no entry. -/
theorem block_without_timing_dropped_witness :
    hasArrowLine ['3', '\n', 'n', 'o', 't', 'a', 't', 'i', 'm', 'e', '\n',
      'S', 't', 'r', 'a', 'y'] = false ∧
    parseSRTBlock ['3', '\n', 'n', 'o', 't', 'a', 't', 'i', 'm', 'e', '\n',
      'S', 't', 'r', 'a', 'y'] 0 = [] :=
  ⟨by decide, (block_without_timing_dropped _ 0 (by decide)).1⟩

/-- C8: on a chronologically ordered timeline, `activeSubtitle` returns
`some e` exactly when `e` sits at the first position whose entry's interval
`[start, end]` contains the playback time (no grace window exists in the
code), and returns `none` whenever the time lies outside every interval. -/
theorem active_entry_first_match (subs : List SubtitleItem) (t : ℚ)
    (hc : Chronological subs) :
    (∀ e, activeSubtitle subs t = some e ↔
      ∃ i, i < subs.length ∧ e = subs.getD i defaultItem ∧
        (subs.getD i defaultItem).start ≤ t ∧
        t ≤ (subs.getD i defaultItem).endSec ∧
        ∀ j, j < i →
          ¬((subs.getD j defaultItem).start ≤ t ∧
            t ≤ (subs.getD j defaultItem).endSec)) ∧
    ((∀ e ∈ subs, ¬(e.start ≤ t ∧ t ≤ e.endSec)) →
      activeSubtitle subs t = none) :=
  ⟨fun e => activeSubtitle_eq_some_iff subs t e, activeSubtitle_eq_none subs t⟩

/-- C8, witness: a chronological two-entry timeline with the playback time
past both intervals yields `none`. -/
theorem active_entry_first_match_witness :
    activeSubtitle [⟨1, 0, 2, []⟩, ⟨2, 1, 3, []⟩] (5 : ℚ) = none := by
  have hc : Chronological [⟨1, 0, 2, []⟩, ⟨2, 1, 3, []⟩] := by
    simp only [Chronological, List.pairwise_cons, List.mem_singleton,
      List.not_mem_nil, false_implies, implies_true, List.Pairwise.nil,
      and_true, forall_eq]
    norm_num
  refine (active_entry_first_match _ 5 hc).2 ?_
  intro e he
  rcases List.mem_cons.1 he with rfl | he
  · intro hab
    norm_num at hab
  · rcases List.mem_singleton.1 he with rfl
    intro hab
    norm_num at hab

/-- C9: a ripple shift keeps every `start` and `end` nonnegative — shifted
entries are clamped at `0`, and the clamp applies to `start` and `end`
independently of each other (`shiftEntry` is exactly the independent
`max 0` on each field). -/
theorem ripple_shift_clamps_nonneg (subs : List SubtitleItem) (i : ℕ)
    (ns : Option ℚ) :
    ((∀ e ∈ subs, 0 ≤ e.start ∧ 0 ≤ e.endSec) →
      ∀ e ∈ handleSubtitleShift subs i ns, 0 ≤ e.start ∧ 0 ≤ e.endSec) ∧
    (∀ d s, shiftEntry d s =
      { s with start := max 0 (s.start + d),
               endSec := max 0 (s.endSec + d) }) := by
  constructor
  · intro h e he
    rcases ns with - | v
    · exact h e he
    · simp only [handleSubtitleShift] at he
      split at he
      · rcases mem_shiftFrom he with hm | ⟨s, hs, rfl⟩
        · exact h e hm
        · exact shiftEntry_nonneg _ s
      · exact h e he
  · exact shiftEntry_eq_max

/-- C10: every entry the App.tsx parser emits has nonempty text — a block
whose text is empty, or empties under cleanup, is never pushed. -/
theorem parsed_entries_have_text (srt : JStr) :
    (parseSRTApp srt).all (fun e => !e.text.isEmpty) = true := by
  rw [List.all_eq_true]
  intro e he
  have h := parseSRTApp_text srt e he
  simpa [List.isEmpty_iff] using h

end SubEngine
